import Mathlib

/-!
# Verification of the veelog core (ADIF import / key-value log store)

Shallow embedding of the veelog repository's core:
* `util/src/lib.rs` — grid-square validation/normalization,
* `adif/src/parse.rs`, `adif/src/data.rs` — the ADIF tag tokenizer, file
  model and serializer,
* `db/src/data.rs`, `db/src/lib.rs` — the sled-backed log store and
  the ADIF importer.

Modelling conventions:
* Rust `&str`/`String` in the ADIF layer is `List Char`; byte strings in the
  store layer are `List Nat` (each entry one byte value).
* The sled database is a pure association list `Store`; `sled::Db::insert`
  is an overwrite-in-place-or-append map update, `get` is first-match lookup.
* `bincode` (standard configuration) is modelled by an explicit injective,
  executable, self-describing codec (`encode_record` / `decode_record`);
  only `decode (encode x) = x` and "garbage can fail to decode" matter
  to the source's behavior, not the exact byte layout.
* Fallible Rust code returns `Except`/`Option`; a Rust `panic!`/`expect`/
  `todo!` is a distinguished failure (`none` / `.panicked`) rather than a
  value.
* Machine integers (`usize`) are `Nat` with explicit `% 2 ^ 64` at the
  little-endian byte boundary (`usizeToLeBytes`).
-/

namespace Veelog

/-! ## Character and byte helpers -/

/-- Rust `u8::to_ascii_uppercase` on a byte value. -/
def byteUpper (b : Nat) : Nat :=
  if 97 ≤ b ∧ b ≤ 122 then b - 32 else b

/-- Rust `char::is_ascii`. -/
def isAsciiChar (c : Char) : Bool := c.toNat < 128

/-- ASCII uppercasing of a `Char`.  On ASCII input this coincides with both
Rust's `char::to_ascii_uppercase` and Unicode `str::to_uppercase`, which is
the only regime in which the source applies it (a `is_ascii` check or the
tokenizer's ASCII-only character classes always come first). -/
def asciiUpper (c : Char) : Char :=
  if 'a' ≤ c ∧ c ≤ 'z' then Char.ofNat (c.toNat - 32) else c

/-- ASCII lowercasing of a `Char` (Rust `to_lowercase` on ASCII input). -/
def asciiLower (c : Char) : Char :=
  if 'A' ≤ c ∧ c ≤ 'Z' then Char.ofNat (c.toNat + 32) else c

/-- Decimal digit character class (the regex `\d` restricted to ASCII,
which is all the serializer ever emits). -/
def isDigitChar (c : Char) : Bool := '0' ≤ c ∧ c ≤ '9'

/-- The tokenizer's tag-name character class `[a-zA-Z|_]`. -/
def isNameChar (c : Char) : Bool :=
  ('a' ≤ c ∧ c ≤ 'z') ∨ ('A' ≤ c ∧ c ≤ 'Z') ∨ c = '|' ∨ c = '_'

/-- Name characters that are fixed points of uppercasing: `[A-Z|_]`. -/
def isUpperNameChar (c : Char) : Bool :=
  ('A' ≤ c ∧ c ≤ 'Z') ∨ c = '|' ∨ c = '_'

/-- Lowercase ASCII letter class `[a-z]` (the tag type-code class). -/
def isLowerAlpha (c : Char) : Bool := 'a' ≤ c ∧ c ≤ 'z'

/-- The tag-value character class `[^<\n]`. -/
def isValChar (c : Char) : Bool := ¬ (c = '<' ∨ c = '\n')

/-- Rust `char::is_whitespace` (the Unicode `White_Space` property), used
by `str::trim_end` on tag values. -/
def isRustWhitespace (c : Char) : Bool :=
  let n := c.toNat
  (9 ≤ n ∧ n ≤ 13) ∨ n = 32 ∨ n = 133 ∨ n = 160 ∨ n = 5760 ∨
  (8192 ≤ n ∧ n ≤ 8202) ∨ n = 8232 ∨ n = 8233 ∨ n = 8239 ∨ n = 8287 ∨ n = 12288

/-- UTF-8 encoded length in bytes of one scalar value (Rust `char::len_utf8`). -/
def charUtf8Len (c : Char) : Nat :=
  if c.toNat < 128 then 1
  else if c.toNat < 2048 then 2
  else if c.toNat < 65536 then 3
  else 4

/-- Rust `str::len`: the UTF-8 byte length. -/
def utf8Len (s : List Char) : Nat := (s.map charUtf8Len).sum

/-- A UTF-8 Rust string as its byte/char list; for the ASCII data the claims
touch, one char is one byte. -/
def strChars (s : String) : List Char := s.toList

/-- Byte view of a string (`String::into_bytes` for ASCII content). -/
def strBytes (s : String) : List Nat := s.toList.map Char.toNat

/-- `str::trim_end`: drop trailing whitespace characters. -/
def trimEnd (s : List Char) : List Char :=
  (s.reverse.dropWhile isRustWhitespace).reverse

/-! ## `util/src/lib.rs` — grid-square validation

```rust
pub fn prettyvalidate_gridsquare(grid: &String) -> Result<String> {
    if !grid.is_ascii() {
        anyhow::bail!("Gridsquare is not ASCII: {}", grid)
    }
    match grid.len() {
        4 => Ok(grid.to_ascii_uppercase()),
        6 => Ok(grid[..4].to_uppercase() + &grid[4..].to_lowercase()),
        _ => anyhow::bail!("GRIDSQUARE is of invalid length {}: {}", grid.len(), grid),
    }
}
```
`grid.len()` is the byte length, which equals the character count once the
ASCII guard has passed; `[..4]`/`[4..]` are byte slices, i.e. `take`/`drop`
on ASCII; Unicode `to_uppercase`/`to_lowercase` agree with the ASCII maps on
ASCII input. -/

/-- The `anyhow` error raised by `prettyvalidate_gridsquare`, carrying the
offending value verbatim as the source's format strings do. -/
inductive GridError where
  | notAscii (offender : List Char)
  | badLength (len : Nat) (offender : List Char)
  deriving DecidableEq, Repr

/-- The offending value named by a `GridError`. -/
def GridError.offender : GridError → List Char
  | .notAscii g => g
  | .badLength _ g => g

def prettyvalidate_gridsquare (grid : List Char) : Except GridError (List Char) :=
  if ¬ grid.all isAsciiChar then .error (.notAscii grid)
  else
    match grid.length with
    | 4 => .ok (grid.map asciiUpper)
    | 6 => .ok ((grid.take 4).map asciiUpper ++ (grid.drop 4).map asciiLower)
    | _ => .error (.badLength grid.length grid)

/-! ## `adif/src/data.rs` — the typed value and file model -/

/-- Alias so the payload of `ADIFType.Bool` can name the builtin booleans
from inside the declaration. -/
abbrev BoolVal := Bool

/-- `ADIFType`: tagged value union.  The `Num` arm carries `f64` in the
source; its payload is irrelevant here because both `serialize` and
`extract_value` hit `todo!()` before touching it. -/
inductive ADIFType where
  | Str (v : List Char)
  | Bool (b : BoolVal)
  | Num (f : Float)

/-- `field_name.to_uppercase().replace(" ", "_")` as done by
`ADIFType::serialize` (ASCII uppercasing; see `asciiUpper`). -/
def normKey (name : List Char) : List Char :=
  (name.map asciiUpper).map (fun c => if c = ' ' then '_' else c)

/-- Decimal digit characters of a natural number, most significant first
(Rust's `Display` for `usize`). -/
def natDigitsFuel : Nat → Nat → List Char
  | 0, _ => []
  | f + 1, n =>
    if n < 10 then [Char.ofNat (48 + n)]
    else natDigitsFuel f (n / 10) ++ [Char.ofNat (48 + n % 10)]

def natDigits (n : Nat) : List Char := natDigitsFuel (n + 1) n

/-- `ADIFType::serialize(field_name)`:
`format!("<{}:{}{}>{}", name.to_uppercase().replace(" ","_"), value.len(), "", value)`
for `Str`; `todo!()` (a panic, modelled `none`) for `Bool`/`Num`. -/
def ADIFType.serialize (field_name : List Char) : ADIFType → Option (List Char)
  | .Str val =>
    some ('<' :: (normKey field_name ++ ':' :: natDigits (utf8Len val) ++ '>' :: val))
  | _ => none

/-- `ADIFType::extract_value`: the text of a `Str`, an
`ADIFSerializeError` otherwise. -/
def ADIFType.extract_value : ADIFType → Except String (List Char)
  | .Str v => .ok v
  | _ => .error "Cannot handle ADIF record with type"

/-- `collect::<Result<Vec<String>>>` over `(key, val).serialize` pairs. -/
def serPairs : List (List Char × ADIFType) → Option (List (List Char))
  | [] => some []
  | p :: ps =>
    match p.2.serialize p.1, serPairs ps with
    | some s, some rest => some (s :: rest)
    | _, _ => none

/-- `Vec::join(sep)` on rendered strings. -/
def joinSep (sep : List Char) : List (List Char) → List Char
  | [] => []
  | [x] => x
  | x :: xs => x ++ sep ++ joinSep sep xs

structure ADIFHeader where
  pairs : List (List Char × ADIFType)

structure ADIFRecord where
  pairs : List (List Char × ADIFType)

structure ADIFFile where
  header : ADIFHeader
  body : List ADIFRecord

/-- The constant part of the banner emitted by `ADIFHeader::serialize`. -/
def bannerPrefix : List Char := strChars "Exported from veelog on "

/-- `ADIFHeader::serialize`.  `Local::now().format("%Y-%m-%d %H:%M:%S")` is
impure; the formatted clock string is passed in as `now`. -/
def ADIFHeader.serialize (now : List Char) (h : ADIFHeader) : Option (List Char) :=
  match serPairs h.pairs with
  | some parts =>
    some (bannerPrefix ++ now ++ '\n' :: (joinSep ['\n'] parts ++ '\n' :: strChars "<EOH>"))
  | none => none

/-- `ADIFRecord::serialize`: pairs joined by `""`, terminated by `<EOR>`. -/
def ADIFRecord.serialize (r : ADIFRecord) : Option (List Char) :=
  match serPairs r.pairs with
  | some parts => some (joinSep [] parts ++ strChars "<EOR>")
  | none => none

/-- `collect::<Result<Vec<String>>>` over record serializations. -/
def serRecords : List ADIFRecord → Option (List (List Char))
  | [] => some []
  | r :: rs =>
    match r.serialize, serRecords rs with
    | some s, some rest => some (s :: rest)
    | _, _ => none

/-- `ADIFFile::serialize`: header, `'\n'`, records joined by `"\n"`. -/
def ADIFFile.serialize (now : List Char) (f : ADIFFile) : Option (List Char) :=
  match f.header.serialize now, serRecords f.body with
  | some h, some rs => some (h ++ '\n' :: joinSep ['\n'] rs)
  | _, _ => none

/-! ## `adif/src/parse.rs` — tokenizer and file parser

The tokenizer is `Regex::new(r"<([a-zA-Z|_]+):(\d+)(?::([a-z]))?>([^<\n]+)")`
scanned with `captures_iter`.  All character classes are deterministic
(none contains the delimiter that follows it), so leftmost matching with
backtracking is exactly maximal munch over each class; the model below
implements that directly. -/

structure Token where
  key : List Char
  len : Nat
  ty : Option Char
  val : List Char
  deriving DecidableEq, Repr

/-- Numeric value of a digit string, as `str::parse::<usize>` (no overflow
in the `Nat` model). -/
def digitsVal (ds : List Char) : Nat :=
  ds.foldl (fun acc c => 10 * acc + (c.toNat - 48)) 0

/-- Optional `(?::([a-z]))?>` tail after the length digits: either `>`
directly (no type code) or `:x>` with `x` a lowercase letter (with
backtracking, any other shape fails the whole attempt, because the
mandatory `>` cannot match the `:` that is present). -/
def matchClose : List Char → Option (Option Char × List Char)
  | [] => none
  | c :: rest =>
    if c = '>' then some (none, rest)
    else if c = ':' then
      match rest with
      | c2 :: c3 :: rest3 =>
        if isLowerAlpha c2 ∧ c3 = '>' then some (some c2, rest3) else none
      | _ => none
    else none

/-- One attempted match of the tag regex at the head of the input; on
success returns the token (key uppercased, value `trim_end`ed, type code
ASCII-uppercased) and the text after the match. -/
def matchTag : List Char → Option (Token × List Char)
  | [] => none
  | c :: cs1 =>
    if c = '<' then
      let name := cs1.takeWhile isNameChar
      let r1 := cs1.dropWhile isNameChar
      if name.isEmpty then none
      else
        match r1 with
        | [] => none
        | c2 :: r2 =>
          if c2 = ':' then
            let digs := r2.takeWhile isDigitChar
            let r3 := r2.dropWhile isDigitChar
            if digs.isEmpty then none
            else
              match matchClose r3 with
              | some (ty, r4) =>
                let v := r4.takeWhile isValChar
                let rest := r4.dropWhile isValChar
                if v.isEmpty then none
                else
                  some (⟨name.map asciiUpper, digitsVal digs, ty.map asciiUpper, trimEnd v⟩,
                    rest)
              | none => none
          else none
    else none

/-- `captures_iter` scan: try a match at each position left to right,
resuming after each match (fuel = remaining length, proven sufficient by
`parse_tokens_fuel_stable` below). -/
def parseTokensFuel : Nat → List Char → List Token
  | 0, _ => []
  | f + 1, cs =>
    match matchTag cs with
    | some (t, rest) => t :: parseTokensFuel f rest
    | none =>
      match cs with
      | [] => []
      | _ :: cs1 => parseTokensFuel f cs1

/-- `parse_tokens` of `adif/src/parse.rs`. -/
def parse_tokens (cs : List Char) : List Token :=
  parseTokensFuel cs.length cs

/-- `build_token_list`: every token becomes `(key, ADIFType::Str(val))`
(the type-code match has a single wildcard arm producing `Str`). -/
def build_token_list (tokens : List Token) : List (List Char × ADIFType) :=
  tokens.map (fun t => (t.key, ADIFType.Str t.val))

/-- `pat.isPrefixOf`-style executable prefix test on chars. -/
def isPfx : List Char → List Char → Bool
  | [], _ => true
  | _ :: _, [] => false
  | p :: ps, c :: cs => p = c ∧ isPfx ps cs

/-- `str::replace(pat, rep)` for a nonempty `pat` (the only calls are the
five-character sentinels): left-to-right, non-overlapping. -/
def replaceFuel (pat rep : List Char) : Nat → List Char → List Char
  | 0, s => s
  | _ + 1, [] => []
  | f + 1, c :: cs =>
    if isPfx pat (c :: cs) then rep ++ replaceFuel pat rep f ((c :: cs).drop pat.length)
    else c :: replaceFuel pat rep f cs

def replaceSub (pat rep s : List Char) : List Char := replaceFuel pat rep s.length s

/-- Prepend a char to the first piece of a split result. -/
def consHead (c : Char) : List (List Char) → List (List Char)
  | [] => [[c]]
  | p :: ps => (c :: p) :: ps

/-- `str::split(pat)` for a nonempty `pat`: non-overlapping leftmost
splitting; always returns at least one piece. -/
def splitFuel (pat : List Char) : Nat → List Char → List (List Char)
  | 0, s => [s]
  | _ + 1, [] => [[]]
  | f + 1, c :: cs =>
    if isPfx pat (c :: cs) then [] :: splitFuel pat f ((c :: cs).drop pat.length)
    else consHead c (splitFuel pat f cs)

def splitOnSub (pat s : List Char) : List (List Char) := splitFuel pat s.length s

/-- `str::split_terminator(pat)`: like `split` but the final piece is
omitted when empty. -/
def splitTerminator (pat s : List Char) : List (List Char) :=
  let parts := splitOnSub pat s
  if parts.getLast? = some [] then parts.dropLast else parts

/-- `parse_adif`: lowercase sentinels normalized, split on `<EOH>`; the
`1`/`_` arity arms are `todo!()` panics (`none`); the body is the last
part split on `<EOR>` terminators, each chunk re-tokenized. -/
def parse_adif (data : List Char) : Option ADIFFile :=
  let d := replaceSub (strChars "<eor>") (strChars "<EOR>")
    (replaceSub (strChars "<eoh>") (strChars "<EOH>") data)
  match splitOnSub (strChars "<EOH>") d with
  | [p1, p2] =>
    some ⟨⟨build_token_list (parse_tokens p1)⟩,
      (splitTerminator (strChars "<EOR>") p2).map
        (fun l => ⟨build_token_list (parse_tokens l)⟩)⟩
  | _ => none

/-! ## `db/src/data.rs` — the sled-backed log store

`sled::Db` is modelled as a pure association list from byte-string keys to
byte-string values; `insert` overwrites in place (or appends a fresh key),
`get` is lookup, `is_empty` is emptiness.  In this pure model `db.get` /
`db.insert` never return `Err`, so the source's `Err(e) => bail!(e)` /
`Err(_) => None` / `Err(_) => todo!()` arms are unreachable. -/

abbrev Store := List (List Nat × List Nat)

/-- Map-style overwrite used to model `sled::Db::insert`. -/
def storeInsert (k v : List Nat) (s : Store) : Store :=
  if s.any (fun p => p.1 = k) then
    s.map (fun p => if p.1 = k then (k, v) else p)
  else s ++ [(k, v)]

/-- `sled::Db::get` (first match). -/
def storeGet (s : Store) (k : List Nat) : Option (List Nat) :=
  (s.find? (fun p => p.1 = k)).map (·.2)

/-- `sled::Db::is_empty`. -/
def storeIsEmpty (s : Store) : Bool := s.isEmpty

/-- `VEELOG_MAGIC`: the fixed 32-byte signature of `db/src/lib.rs`. -/
def VEELOG_MAGIC : List Nat := strBytes "D784CB9E58D279B42FDA4D0A5FC7DA80"

def kMAGIC : List Nat := strBytes "MAGIC"
def kINFO : List Nat := strBytes "INFO"
def kHEADER : List Nat := strBytes "HEADER"
def kINDEX : List Nat := strBytes "INDEX"

/-- The `INFO` string written by `init_db`. -/
def infoString : List Nat :=
  strBytes "Database generated by veelog. Visit https://github.com/hf-ikea/veelog for more information."

/-- `usize::to_le_bytes` (64-bit): eight little-endian bytes of `n % 2^64`. -/
def usizeToLeBytes (n : Nat) : List Nat :=
  [n % 256, n / 256 % 256, n / 256 ^ 2 % 256, n / 256 ^ 3 % 256,
   n / 256 ^ 4 % 256, n / 256 ^ 5 % 256, n / 256 ^ 6 % 256, n / 256 ^ 7 % 256]

/-- `usize::from_le_bytes` on an 8-byte value. -/
def leBytesToNat (v : List Nat) : Nat :=
  v.foldr (fun b acc => b % 256 + 256 * acc) 0

/-! ### The record model and the bincode stand-in codec

`FieldType` and `LogRecord` mirror the source; `IndexMap::insert` keeps an
existing key's position and overwrites its value, otherwise appends.

`bincode::encode_to_vec(_, config::standard())` /
`decode_from_slice` are modelled by an explicit injective self-describing
codec: a unary length code (`encNat`), length-prefixed byte strings, a tag
per `FieldType` constructor, and a length-prefixed pair list.  Decoding
returns `none` on structurally invalid bytes, as bincode does; like
`decode_from_slice`, trailing bytes after a complete value are tolerated. -/

inductive FieldType where
  | Timestamp
  | WorkedCall
  | Frequency
  | Mode
  | SentRST
  | RcvdRST
  | GridSquare
  | PrimaryAdminSubdiv
  | SentSerial
  | RcvdSerial
  | DXCC
  | CQZ
  | ITUZ
  | POTARef
  | Comment
  | Name
  | QTH
  | Other (name : List Nat)
  deriving DecidableEq, Repr

/-- `FieldType::from_adif_field` (the fixed name→variant table with the
`Other` fallback carrying the name verbatim, as UTF-8 bytes). -/
def FieldType.from_adif_field (field_name : List Char) : FieldType :=
  if field_name = strChars "CALL" then .WorkedCall
  else if field_name = strChars "FREQ" then .Frequency
  else if field_name = strChars "MODE" then .Mode
  else if field_name = strChars "RST_SENT" then .SentRST
  else if field_name = strChars "RST_RCVD" then .RcvdRST
  else if field_name = strChars "GRIDSQUARE" then .GridSquare
  else if field_name = strChars "STATE" then .PrimaryAdminSubdiv
  else if field_name = strChars "STX" then .SentSerial
  else if field_name = strChars "SRX" then .RcvdSerial
  else if field_name = strChars "DXCC" then .DXCC
  else if field_name = strChars "CQZ" then .CQZ
  else if field_name = strChars "ITUZ" then .ITUZ
  else if field_name = strChars "POTA_REF" then .POTARef
  else if field_name = strChars "COMMENT" then .Comment
  else if field_name = strChars "NAME" then .Name
  else if field_name = strChars "QTH" then .QTH
  else .Other (field_name.map Char.toNat)

/-- A `LogRecord`: ordered `FieldType → String` map (`IndexMap`), values
as UTF-8 byte strings. -/
structure LogRecord where
  map : List (FieldType × List Nat)
  deriving DecidableEq, Repr

/-- `IndexMap::insert`: overwrite in place, else append. -/
def imInsert (k : FieldType) (v : List Nat) (m : List (FieldType × List Nat)) :
    List (FieldType × List Nat) :=
  if m.any (fun p => p.1 = k) then
    m.map (fun p => if p.1 = k then (k, v) else p)
  else m ++ [(k, v)]

/-- `LogRecord::new`. -/
def LogRecord.new : LogRecord := ⟨[]⟩

/-- `LogRecord::insert_field`. -/
def LogRecord.insert_field (r : LogRecord) (ty : FieldType) (val : List Nat) : LogRecord :=
  ⟨imInsert ty val r.map⟩

/-- `LogRecord::get_field`. -/
def LogRecord.get_field (r : LogRecord) (ty : FieldType) : Option (List Nat) :=
  (r.map.find? (fun p => p.1 = ty)).map (·.2)

/-- `LogHeader` (the `version` field is `CARGO_PKG_VERSION`, left
arbitrary here). -/
structure LogHeader where
  version : List Nat
  op_call : List Nat
  comment : List Nat
  deriving DecidableEq, Repr

/-- Unary code for a natural number: `n` ones then a zero. -/
def encNat (n : Nat) : List Nat := List.replicate n 1 ++ [0]

def decNat : List Nat → Option (Nat × List Nat)
  | [] => none
  | 0 :: rest => some (0, rest)
  | 1 :: rest =>
    match decNat rest with
    | some (n, r) => some (n + 1, r)
    | none => none
  | _ => none

/-- Length-prefixed byte string. -/
def encBytes (bs : List Nat) : List Nat := encNat bs.length ++ bs

def decBytes (l : List Nat) : Option (List Nat × List Nat) :=
  match decNat l with
  | some (n, r) => if n ≤ r.length then some (r.take n, r.drop n) else none
  | none => none

/-- Constructor tag of a `FieldType`. -/
def ftTag : FieldType → Nat
  | .Timestamp => 0
  | .WorkedCall => 1
  | .Frequency => 2
  | .Mode => 3
  | .SentRST => 4
  | .RcvdRST => 5
  | .GridSquare => 6
  | .PrimaryAdminSubdiv => 7
  | .SentSerial => 8
  | .RcvdSerial => 9
  | .DXCC => 10
  | .CQZ => 11
  | .ITUZ => 12
  | .POTARef => 13
  | .Comment => 14
  | .Name => 15
  | .QTH => 16
  | .Other _ => 17

def ftOfTag : Nat → Option FieldType
  | 0 => some .Timestamp
  | 1 => some .WorkedCall
  | 2 => some .Frequency
  | 3 => some .Mode
  | 4 => some .SentRST
  | 5 => some .RcvdRST
  | 6 => some .GridSquare
  | 7 => some .PrimaryAdminSubdiv
  | 8 => some .SentSerial
  | 9 => some .RcvdSerial
  | 10 => some .DXCC
  | 11 => some .CQZ
  | 12 => some .ITUZ
  | 13 => some .POTARef
  | 14 => some .Comment
  | 15 => some .Name
  | 16 => some .QTH
  | _ => none

def encFT (ft : FieldType) : List Nat :=
  match ft with
  | .Other s => encNat 17 ++ encBytes s
  | _ => encNat (ftTag ft)

def decFT (l : List Nat) : Option (FieldType × List Nat) :=
  match decNat l with
  | some (17, r) =>
    match decBytes r with
    | some (s, r2) => some (.Other s, r2)
    | none => none
  | some (t, r) =>
    match ftOfTag t with
    | some ft => some (ft, r)
    | none => none
  | none => none

def encPair (p : FieldType × List Nat) : List Nat := encFT p.1 ++ encBytes p.2

def decPair (l : List Nat) : Option ((FieldType × List Nat) × List Nat) :=
  match decFT l with
  | some (ft, r) =>
    match decBytes r with
    | some (v, r2) => some ((ft, v), r2)
    | none => none
  | none => none

def decPairs : Nat → List Nat → Option (List (FieldType × List Nat) × List Nat)
  | 0, l => some ([], l)
  | n + 1, l =>
    match decPair l with
    | some (p, r) =>
      match decPairs n r with
      | some (ps, r2) => some (p :: ps, r2)
      | none => none
    | none => none

/-- `Log::encode_record` on a `LogRecord` (bincode stand-in). -/
def encode_record (r : LogRecord) : List Nat :=
  encNat r.map.length ++ (r.map.map encPair).flatten

/-- `Log::decode_record::<LogRecord>` (bincode stand-in; `none` = decode
error, which the callers turn into a `Result::Err` or a panic). -/
def decode_record (enc : List Nat) : Option LogRecord :=
  match decNat enc with
  | some (n, r) =>
    match decPairs n r with
    | some (ps, _) => some ⟨ps⟩
    | none => none
  | none => none

/-- `Log::encode_record` on the `LogHeader` (bincode: fields in order). -/
def encode_header (h : LogHeader) : List Nat :=
  encBytes h.version ++ encBytes h.op_call ++ encBytes h.comment

/-! ### The `Log` operations -/

/-- The `Log` handle owning its store. -/
structure Log where
  db : Store
  deriving DecidableEq

/-- `Log::new`: adopt an existing store only if `MAGIC` exists and its
ASCII-uppercased bytes equal `VEELOG_MAGIC`. -/
def Log.new (db : Store) : Except String Log :=
  match storeGet db kMAGIC with
  | some val =>
    if val.map byteUpper = VEELOG_MAGIC then .ok ⟨db⟩
    else .error "MAGIC exists and does not match"
  | none => .error "Uninitalized database. Use Log::new_init() instead of Log::new()"

/-- `Log::init_db`: write `MAGIC`, `INFO`, `HEADER`, then `INDEX = 0`,
in that order. -/
def Log.init_db (s : Store) (header : LogHeader) : Store :=
  storeInsert kINDEX (usizeToLeBytes 0)
    (storeInsert kHEADER (encode_header header)
      (storeInsert kINFO infoString
        (storeInsert kMAGIC VEELOG_MAGIC s)))

/-- `Log::new_init`, with the physical store state after the call as the
second component (the error path performs no writes). -/
def Log.new_init (db : Store) (header : LogHeader) : Except String Log × Store :=
  if storeIsEmpty db then
    let s := Log.init_db db header
    (.ok ⟨s⟩, s)
  else (.error "Non-empty database used in Log::new_init()", db)

/-- `Log::get_idx`: `expect`-laden read of `INDEX`; `none` models the
panic on a missing key or a value that is not exactly 8 bytes. -/
def Log.get_idx (s : Store) : Option Nat :=
  match storeGet s kINDEX with
  | some v => if v.length = 8 then some (leBytesToNat v) else none
  | none => none

/-- `Log::set_idx`. -/
def Log.set_idx (s : Store) (idx : Nat) : Store :=
  storeInsert kINDEX (usizeToLeBytes idx) s

/-- Result of `Log::get_record`:  `absent` covers both `Ok(None)` and the
swallowed `Err(_)` branch; `panicked` models the
`.expect("Could not decode record …")` on undecodable bytes. -/
inductive RecResult where
  | absent
  | found (r : LogRecord)
  | panicked
  deriving DecidableEq, Repr

/-- `Log::get_record`. -/
def Log.get_record (s : Store) (idx : Nat) : RecResult :=
  match storeGet s (usizeToLeBytes idx) with
  | some enc =>
    match decode_record enc with
    | some r => .found r
    | none => .panicked
  | none => .absent

/-- `Log::modify_record`: unconditional overwrite of the slot. -/
def Log.modify_record (s : Store) (idx : Nat) (record : LogRecord) : Store :=
  storeInsert (usizeToLeBytes idx) (encode_record record) s

/-- `Log::insert_record`: read the index (may panic), write the slot,
advance the index by one. -/
def Log.insert_record (s : Store) (record : LogRecord) : Option Store :=
  match Log.get_idx s with
  | some idx => some (Log.set_idx (Log.modify_record s idx record) (idx + 1))
  | none => none

/-- Loop body of `Log::get_records` for indices `0 .. n`; `none` models a
panic escaping from `get_record`. -/
def getRecordsAux (s : Store) : Nat → Option (List LogRecord)
  | 0 => some []
  | n + 1 =>
    match getRecordsAux s n with
    | some pre =>
      match Log.get_record s n with
      | .found v => some (pre ++ [v])
      | .absent => some pre
      | .panicked => none
    | none => none

/-- `Log::get_records`. -/
def Log.get_records (s : Store) : Option (List LogRecord) :=
  match Log.get_idx s with
  | some n => getRecordsAux s n
  | none => none

/-! ### The import pipeline (`Log::import_adif`)

Dates and times come from the external `jiff` crate:
`strtime::parse("%Y%m%d", v)?.to_date()` and
`strtime::parse("%H%M%S", v)?.to_time()`.  They are modelled as fixed-width
digit parses with calendar/clock validation — exactly the accepting set of
jiff on the zero-padded fixed-width strings ADIF mandates — and
`Timestamp`'s `Display` is RFC 3339 `YYYY-MM-DDThh:mm:ssZ` in UTC. -/

structure CivDate where
  year : Nat
  month : Nat
  day : Nat
  deriving DecidableEq, Repr

structure CivTime where
  hour : Nat
  minute : Nat
  second : Nat
  deriving DecidableEq, Repr

def isLeapYear (y : Nat) : Bool :=
  (y % 4 = 0 ∧ y % 100 ≠ 0) ∨ y % 400 = 0

def daysInMonth (y m : Nat) : Nat :=
  if m = 2 then (if isLeapYear y then 29 else 28)
  else if m = 4 ∨ m = 6 ∨ m = 9 ∨ m = 11 then 30
  else 31

/-- `strtime::parse("%Y%m%d", val)?.to_date()` on a `YYYYMMDD` string. -/
def parseQsoDate (val : List Char) : Option CivDate :=
  if val.length = 8 ∧ val.all isDigitChar then
    let y := digitsVal (val.take 4)
    let m := digitsVal ((val.drop 4).take 2)
    let d := digitsVal (val.drop 6)
    if 1 ≤ m ∧ m ≤ 12 ∧ 1 ≤ d ∧ d ≤ daysInMonth y m then some ⟨y, m, d⟩ else none
  else none

/-- `strtime::parse("%H%M%S", val)?.to_time()` on a `HHMMSS` string. -/
def parseTimeOn (val : List Char) : Option CivTime :=
  if val.length = 6 ∧ val.all isDigitChar then
    let h := digitsVal (val.take 2)
    let m := digitsVal ((val.drop 2).take 2)
    let s := digitsVal (val.drop 4)
    if h ≤ 23 ∧ m ≤ 59 ∧ s ≤ 59 then some ⟨h, m, s⟩ else none
  else none

/-- Zero-padded decimal rendering. -/
def padDigits (w n : Nat) : List Char :=
  let ds := natDigits n
  List.replicate (w - ds.length) '0' ++ ds

/-- `Timestamp::to_string()` of `date.to_datetime(time).to_zoned(UTC)`:
RFC 3339 with a `Z` suffix, as UTF-8 bytes. -/
def timestampBytes (d : CivDate) (t : CivTime) : List Nat :=
  (padDigits 4 d.year ++ '-' :: padDigits 2 d.month ++ '-' :: padDigits 2 d.day ++
   'T' :: padDigits 2 t.hour ++ ':' :: padDigits 2 t.minute ++ ':' :: padDigits 2 t.second ++
   ['Z']).map Char.toNat

/-- `LogRecord::insert_timestamp`. -/
def LogRecord.insert_timestamp (r : LogRecord) (d : CivDate) (t : CivTime) : LogRecord :=
  r.insert_field .Timestamp (timestampBytes d t)

/-- `val.trim_matches('0')`. -/
def trimZeros (val : List Char) : List Char :=
  ((val.dropWhile (fun c => c = '0')).reverse.dropWhile (fun c => c = '0')).reverse

/-- The fixed exclusion set of field names dropped by the importer. -/
def droppedFields : List (List Char) :=
  [strChars "STATION_CALLSIGN", strChars "OPERATOR", strChars "BAND",
   strChars "TIME_OFF", strChars "QSO_DATE_OFF", strChars "TX_PWR", strChars "SUBMODE"]

/-- The per-field loop of `import_adif` over one ADIF record: builds the
`LogRecord` and the pending `date`/`time`, or propagates the first fatal
error (`extract_value`, grid-square validation, date/time parse). -/
def buildRecord : List (List Char × ADIFType) → LogRecord → Option CivDate → Option CivTime →
    Except String (LogRecord × Option CivDate × Option CivTime)
  | [], r, d, t => .ok (r, d, t)
  | (field_name, value) :: rest, r, d, t =>
    match value.extract_value with
    | .error e => .error e
    | .ok val =>
      if field_name.take 3 = strChars "MY_" ∨ field_name.take 3 = strChars "SIG" ∨
          field_name.take 3 = strChars "QSL" then
        buildRecord rest r d t
      else if field_name ∈ droppedFields then
        buildRecord rest r d t
      else if field_name = strChars "FREQ" then
        buildRecord rest
          (r.insert_field (FieldType.from_adif_field field_name) ((trimZeros val).map Char.toNat))
          d t
      else if field_name = strChars "GRIDSQUARE" then
        match prettyvalidate_gridsquare val with
        | .ok g =>
          buildRecord rest
            (r.insert_field (FieldType.from_adif_field field_name) (g.map Char.toNat)) d t
        | .error _ => .error "Could not validate GRIDSQUARE"
      else if field_name = strChars "QSO_DATE" then
        match parseQsoDate val with
        | some dd => buildRecord rest r (some dd) t
        | none => .error "Could not parse QSO_DATE"
      else if field_name = strChars "TIME_ON" then
        match parseTimeOn val with
        | some tt => buildRecord rest r d (some tt)
        | none => .error "Could not parse TIME_ON"
      else
        buildRecord rest
          (r.insert_field (FieldType.from_adif_field field_name) (val.map Char.toNat)) d t

/-- Outcome of `Log::import_adif`: `fail` carries the store state reached
when the `Err` propagates (earlier records stay inserted); `panicked`
models a panic escaping `insert_record`. -/
inductive ImportResult where
  | ok (s : Store)
  | fail (s : Store) (msg : String)
  | panicked
  deriving DecidableEq, Repr

/-- The per-record loop of `import_adif`: note the `else` of the source's
`if let Some(d) = date` — a record with a date but *no* time is inserted
without any `Timestamp` field, while a record with no date is rejected. -/
def importGo (s : Store) : List ADIFRecord → ImportResult
  | [] => .ok s
  | rec :: rest =>
    match buildRecord rec.pairs LogRecord.new none none with
    | .error e => .fail s e
    | .ok (r, d, t) =>
      match d with
      | some dd =>
        let r2 :=
          match t with
          | some tt => r.insert_timestamp dd tt
          | none => r
        match Log.insert_record s r2 with
        | some s2 => importGo s2 rest
        | none => .panicked
      | none => .fail s "ADIF record had no date and/or time fields"

/-- `Log::import_adif`. -/
def Log.import_adif (s : Store) (adif : ADIFFile) : ImportResult :=
  importGo s adif.body

/-- Iterated `Log::insert_record` (the import loop's storage effect and
the shape quantified over by the index-monotonicity property). -/
def insertAll (s : Store) : List LogRecord → Option Store
  | [] => some s
  | r :: rs =>
    match Log.insert_record s r with
    | some s2 => insertAll s2 rs
    | none => none

/-! ### Round-trip infrastructure (claim C8)

Helper notions used to state and prove the serialize/parse round trip:
well-formedness of keys and values (the regime in which the tag grammar
can represent a pair at all), the rendered tag of a pair, and positional
invariants about what can follow a `<` in serialized text. -/

/-- A key the tag grammar and the serializer both fix: nonempty, only
`[A-Z|_]` characters (so `to_uppercase`/space-replacement and the
tokenizer's upper-casing are all the identity). -/
def wfKey (k : List Char) : Bool := !k.isEmpty && k.all isUpperNameChar

/-- A value the tag grammar can carry verbatim: nonempty, free of `<` and
newline, with no trailing whitespace for `trim_end` to eat. -/
def wfVal (v : List Char) : Bool :=
  !v.isEmpty && v.all isValChar &&
  (match v.getLast? with
   | some c => !isRustWhitespace c
   | none => false)

/-- A serializable pair: a well-formed key with a `Str` value. -/
def wfPair : (List Char × ADIFType) → Bool
  | (k, .Str v) => wfKey k && wfVal v
  | _ => false

/-- A file in the round-trippable regime: all pairs well-formed and at
least one record (`split_terminator` manufactures a spurious empty record
from an empty body). -/
def wfFile (f : ADIFFile) : Bool :=
  f.header.pairs.all wfPair && !f.body.isEmpty &&
  f.body.all (fun r => r.pairs.all wfPair)

/-- The rendered tag of a well-formed pair (what `ADIFType::serialize`
produces once key normalization is the identity). -/
def serTag (k v : List Char) : List Char :=
  '<' :: (k ++ ':' :: (natDigits (utf8Len v) ++ '>' :: v))

/-- Rendered tag of a pair (`[]` on the unreachable non-`Str` arms). -/
def pairTag : (List Char × ADIFType) → List Char
  | (k, .Str v) => serTag k v
  | _ => []

/-- The token the tokenizer recovers from a rendered well-formed pair. -/
def tokenOf : (List Char × ADIFType) → Token
  | (k, .Str v) => ⟨k, utf8Len v, none, v⟩
  | (k, _) => ⟨k, 0, none, []⟩

/-- The concatenated tags of one record (its serialization minus the
`<EOR>` terminator). -/
def recChunk (r : ADIFRecord) : List Char := joinSep [] (r.pairs.map pairTag)

/-- What may follow a `<` that opens a rendered tag: a nonempty all-upper
key then `:`. -/
def TagTail (b : List Char) : Prop :=
  ∃ k r, b = k ++ ':' :: r ∧ k ≠ [] ∧ ∀ c ∈ k, isUpperNameChar c = true

/-- Tail shapes occurring after `<` in the serialized body: a tag or the
record sentinel. -/
def TagOrEorTail (b : List Char) : Prop :=
  TagTail b ∨ ∃ r, b = 'E' :: 'O' :: 'R' :: '>' :: r

/-- Tail shapes occurring after `<` anywhere in a serialized file. -/
def AnyTail (b : List Char) : Prop :=
  TagTail b ∨ (∃ r, b = 'E' :: 'O' :: 'H' :: '>' :: r) ∨
    (∃ r, b = 'E' :: 'O' :: 'R' :: '>' :: r)

/-- Every `<` inside `s` opens a tail satisfying `Q`. -/
def LtShape (Q : List Char → Prop) (s : List Char) : Prop :=
  ∀ a b, s = a ++ '<' :: b → Q b

/-- `pat` occurs nowhere in `s`. -/
def NoOcc (pat s : List Char) : Prop := ∀ a b, s ≠ a ++ pat ++ b

/-! ## Character-level lemmas -/

theorem char_toNat_ofNat {n : Nat} (h : n < 55296) : (Char.ofNat n).toNat = n := by
  have hv : n.isValidChar := Or.inl h
  simp [Char.ofNat, hv, Char.ofNatAux, Char.toNat, UInt32.toNat, UInt32.ofNatCore]

theorem char_le_toNat {a b : Char} (h : a ≤ b) : a.toNat ≤ b.toNat := h

theorem char_le_of_toNat {a b : Char} (h : a.toNat ≤ b.toNat) : a ≤ b := h

theorem asciiUpper_eq_of_lower {c : Char} (h : 'a' ≤ c ∧ c ≤ 'z') :
    asciiUpper c = Char.ofNat (c.toNat - 32) := if_pos h

theorem asciiUpper_eq_self {c : Char} (h : ¬ ('a' ≤ c ∧ c ≤ 'z')) :
    asciiUpper c = c := if_neg h

theorem asciiUpper_toNat_of_lower {c : Char} (h : 'a' ≤ c ∧ c ≤ 'z') :
    (asciiUpper c).toNat = c.toNat - 32 := by
  have h2 : c.toNat ≤ 122 := char_le_toNat h.2
  rw [asciiUpper_eq_of_lower h, char_toNat_ofNat (by omega)]

theorem asciiUpper_ascii {c : Char} (h : isAsciiChar c = true) :
    isAsciiChar (asciiUpper c) = true := by
  simp only [isAsciiChar, decide_eq_true_eq] at h ⊢
  by_cases hc : 'a' ≤ c ∧ c ≤ 'z'
  · rw [asciiUpper_toNat_of_lower hc]; omega
  · rw [asciiUpper_eq_self hc]; exact h

theorem asciiUpper_not_lower (c : Char) : ¬ ('a' ≤ asciiUpper c ∧ asciiUpper c ≤ 'z') := by
  by_cases hc : 'a' ≤ c ∧ c ≤ 'z'
  · intro hcon
    have h1 : (97 : Nat) ≤ (asciiUpper c).toNat := char_le_toNat hcon.1
    have h2 : (97 : Nat) ≤ c.toNat := char_le_toNat hc.1
    have h3 : c.toNat ≤ 122 := char_le_toNat hc.2
    rw [asciiUpper_toNat_of_lower hc] at h1
    omega
  · rw [asciiUpper_eq_self hc]; exact hc

theorem asciiUpper_idem (c : Char) : asciiUpper (asciiUpper c) = asciiUpper c :=
  asciiUpper_eq_self (asciiUpper_not_lower c)

theorem asciiLower_eq_of_upper {c : Char} (h : 'A' ≤ c ∧ c ≤ 'Z') :
    asciiLower c = Char.ofNat (c.toNat + 32) := if_pos h

theorem asciiLower_eq_self {c : Char} (h : ¬ ('A' ≤ c ∧ c ≤ 'Z')) :
    asciiLower c = c := if_neg h

theorem asciiLower_toNat_of_upper {c : Char} (h : 'A' ≤ c ∧ c ≤ 'Z') :
    (asciiLower c).toNat = c.toNat + 32 := by
  have h2 : c.toNat ≤ 90 := char_le_toNat h.2
  rw [asciiLower_eq_of_upper h, char_toNat_ofNat (by omega)]

theorem asciiLower_ascii {c : Char} (h : isAsciiChar c = true) :
    isAsciiChar (asciiLower c) = true := by
  simp only [isAsciiChar, decide_eq_true_eq] at h ⊢
  by_cases hc : 'A' ≤ c ∧ c ≤ 'Z'
  · have h2 : c.toNat ≤ 90 := char_le_toNat hc.2
    rw [asciiLower_toNat_of_upper hc]; omega
  · rw [asciiLower_eq_self hc]; exact h

theorem asciiLower_not_upper (c : Char) : ¬ ('A' ≤ asciiLower c ∧ asciiLower c ≤ 'Z') := by
  by_cases hc : 'A' ≤ c ∧ c ≤ 'Z'
  · intro hcon
    have h1 : (asciiLower c).toNat ≤ 90 := char_le_toNat hcon.2
    have h2 : (65 : Nat) ≤ c.toNat := char_le_toNat hc.1
    rw [asciiLower_toNat_of_upper hc] at h1
    omega
  · rw [asciiLower_eq_self hc]; exact hc

theorem asciiLower_idem (c : Char) : asciiLower (asciiLower c) = asciiLower c :=
  asciiLower_eq_self (asciiLower_not_upper c)

/-! ## Claims C3 and C4 — grid-square normalization -/

/-- C3: grid-square normalization upper-cases an ASCII 4-character grid
wholesale; on an ASCII 6-character grid it upper-cases the first 4 and
lower-cases the last 2 characters; every non-ASCII input and every other
length is a validation error carrying the offending value. -/
theorem gridsquare_normalization_spec (g : List Char) :
    (g.all isAsciiChar = true → g.length = 4 →
      prettyvalidate_gridsquare g = .ok (g.map asciiUpper)) ∧
    (g.all isAsciiChar = true → g.length = 6 →
      prettyvalidate_gridsquare g = .ok ((g.take 4).map asciiUpper ++ (g.drop 4).map asciiLower)) ∧
    (g.all isAsciiChar = false →
      prettyvalidate_gridsquare g = .error (.notAscii g)) ∧
    (g.all isAsciiChar = true → g.length ≠ 4 → g.length ≠ 6 →
      prettyvalidate_gridsquare g = .error (.badLength g.length g)) ∧
    (∀ e, prettyvalidate_gridsquare g = .error e → e.offender = g) := by
  refine ⟨?_, ?_, ?_, ?_, ?_⟩
  · intro hA h4
    unfold prettyvalidate_gridsquare
    rw [if_neg (by simp [hA]), h4]
  · intro hA h6
    unfold prettyvalidate_gridsquare
    rw [if_neg (by simp [hA]), h6]
  · intro hA
    unfold prettyvalidate_gridsquare
    rw [if_pos (by simp [hA])]
  · intro hA h4 h6
    unfold prettyvalidate_gridsquare
    rw [if_neg (by simp [hA])]
    split
    · next heq => exact absurd heq h4
    · next heq => exact absurd heq h6
    · rfl
  · intro e he
    unfold prettyvalidate_gridsquare at he
    split at he
    · rw [← (Except.error.injEq _ _).mp he]
      rfl
    · split at he
      · exact absurd he (by simp)
      · exact absurd he (by simp)
      · rw [← (Except.error.injEq _ _).mp he]
        rfl

/-- C4: normalization is idempotent — a successful normalization output
normalizes to itself. -/
theorem gridsquare_normalization_idem (g r : List Char)
    (h : prettyvalidate_gridsquare g = .ok r) :
    prettyvalidate_gridsquare r = .ok r := by
  unfold prettyvalidate_gridsquare at h
  split at h
  · exact absurd h (by simp)
  · next hA =>
    have hA' : g.all isAsciiChar = true := by
      by_contra hx
      exact hA (by simpa using hx)
    split at h
    · next h4 =>
      have hr : r = g.map asciiUpper := by
        have := (Except.ok.injEq _ _).mp h
        exact this.symm
      have hrA : r.all isAsciiChar = true := by
        subst hr
        simp only [List.all_map, List.all_eq_true] at hA' ⊢
        intro c hc
        exact asciiUpper_ascii (hA' c hc)
      have hrlen : r.length = 4 := by simp [hr, h4]
      have hmap : r.map asciiUpper = r := by
        conv_lhs => rw [hr]
        rw [List.map_map, hr]
        exact List.map_congr_left (fun c _ => asciiUpper_idem c)
      unfold prettyvalidate_gridsquare
      rw [if_neg (by simp [hrA]), hrlen]
      show Except.ok (r.map asciiUpper) = Except.ok r
      rw [hmap]
    · next h6 =>
      have hr : r = (g.take 4).map asciiUpper ++ (g.drop 4).map asciiLower := by
        have := (Except.ok.injEq _ _).mp h
        exact this.symm
      have hlen4 : ((g.take 4).map asciiUpper).length = 4 := by
        simp [List.length_take, h6]
      have hrA : r.all isAsciiChar = true := by
        subst hr
        simp only [List.all_append, List.all_map, List.all_eq_true, Bool.and_eq_true] at hA' ⊢
        exact ⟨fun c hc => asciiUpper_ascii (hA' c (List.mem_of_mem_take hc)),
          fun c hc => asciiLower_ascii (hA' c (List.mem_of_mem_drop hc))⟩
      have hrlen : r.length = 6 := by
        subst hr
        simp [List.length_take, List.length_drop, h6]
      have htake : r.take 4 = (g.take 4).map asciiUpper := by
        rw [hr]; exact List.take_left' hlen4
      have hdrop : r.drop 4 = (g.drop 4).map asciiLower := by
        rw [hr]; exact List.drop_left' hlen4
      have hmapU : ((g.take 4).map asciiUpper).map asciiUpper = (g.take 4).map asciiUpper := by
        rw [List.map_map]
        exact List.map_congr_left (fun c _ => asciiUpper_idem c)
      have hmapL : ((g.drop 4).map asciiLower).map asciiLower = (g.drop 4).map asciiLower := by
        rw [List.map_map]
        exact List.map_congr_left (fun c _ => asciiLower_idem c)
      unfold prettyvalidate_gridsquare
      rw [if_neg (by simp [hrA]), hrlen]
      show Except.ok ((r.take 4).map asciiUpper ++ (r.drop 4).map asciiLower) = Except.ok r
      rw [htake, hdrop, hmapU, hmapL, ← hr]
    · exact absurd h (by simp)

/-- Witness for C3 at concrete grids, including the repository's own test
vectors. -/
theorem gridsquare_normalization_spec_witness :
    prettyvalidate_gridsquare (strChars "aa00") = .ok (strChars "AA00") ∧
    prettyvalidate_gridsquare (strChars "aa00AA") = .ok (strChars "AA00aa") ∧
    prettyvalidate_gridsquare (strChars "aa000") = .error (.badLength 5 (strChars "aa000")) := by
  refine ⟨?_, ?_, ?_⟩
  · exact (gridsquare_normalization_spec (strChars "aa00")).1 (by decide) (by decide)
  · exact (gridsquare_normalization_spec (strChars "aa00AA")).2.1 (by decide) (by decide)
  · exact (gridsquare_normalization_spec (strChars "aa000")).2.2.2.1
      (by decide) (by decide) (by decide)

/-- Witness for C4 at a concrete grid. -/
theorem gridsquare_normalization_idem_witness :
    prettyvalidate_gridsquare (strChars "AA00aa") = .ok (strChars "AA00aa") := by
  exact gridsquare_normalization_idem (strChars "aa00AA") (strChars "AA00aa") (by rfl)

/-! ## Store lemmas -/

theorem storeGet_map_ne (k v k' : List Nat) (h : k' ≠ k) :
    ∀ s : Store, storeGet (s.map (fun p => if p.1 = k then (k, v) else p)) k' = storeGet s k'
  | [] => rfl
  | p :: ps => by
    by_cases hp : p.1 = k
    · simp only [storeGet, List.map_cons, List.find?_cons, if_pos hp]
      have h1 : (decide ((k, v).1 = k')) = false := by
        simp only [decide_eq_false_iff_not]
        exact fun hh => h (hh ▸ rfl)
      have h2 : (decide (p.1 = k')) = false := by
        simp only [decide_eq_false_iff_not, hp]
        exact fun hh => h (hh ▸ rfl)
      rw [h1, h2]
      exact storeGet_map_ne k v k' h ps
    · simp only [storeGet, List.map_cons, List.find?_cons, if_neg hp]
      cases hd : (decide (p.1 = k'))
      · exact storeGet_map_ne k v k' h ps
      · rfl

theorem storeGet_append_single_ne (k v k' : List Nat) (h : k' ≠ k) :
    ∀ s : Store, storeGet (s ++ [(k, v)]) k' = storeGet s k'
  | [] => by
    simp only [storeGet, List.nil_append, List.find?_cons, List.find?_nil]
    have h1 : (decide ((k, v).1 = k')) = false := by
      simp only [decide_eq_false_iff_not]
      exact fun hh => h (hh ▸ rfl)
    rw [h1]
  | p :: ps => by
    simp only [storeGet, List.cons_append, List.find?_cons]
    cases hd : (decide (p.1 = k'))
    · exact storeGet_append_single_ne k v k' h ps
    · rfl

/-- Writing key `k` leaves every other key's value unchanged. -/
theorem storeGet_insert_ne {k v : List Nat} (s : Store) {k' : List Nat} (h : k' ≠ k) :
    storeGet (storeInsert k v s) k' = storeGet s k' := by
  unfold storeInsert
  split
  · exact storeGet_map_ne k v k' h s
  · exact storeGet_append_single_ne k v k' h s

theorem storeGet_map_self (k v : List Nat) :
    ∀ s : Store, s.any (fun p => p.1 = k) = true →
      storeGet (s.map (fun p => if p.1 = k then (k, v) else p)) k = some v
  | p :: ps, hany => by
    by_cases hp : p.1 = k
    · simp [storeGet, List.find?_cons, if_pos hp]
    · simp only [storeGet, List.map_cons, List.find?_cons, if_neg hp]
      have h2 : (decide (p.1 = k)) = false := by simpa using hp
      rw [h2]
      have hps : ps.any (fun p => p.1 = k) = true := by
        simp only [List.any_cons, Bool.or_eq_true] at hany
        rcases hany with h3 | h3
        · exact absurd (by simpa using h3) hp
        · exact h3
      exact storeGet_map_self k v ps hps

theorem storeGet_append_single_self (k v : List Nat) :
    ∀ s : Store, s.any (fun p => p.1 = k) = false →
      storeGet (s ++ [(k, v)]) k = some v
  | [], _ => by simp [storeGet, List.find?_cons]
  | p :: ps, hany => by
    simp only [List.any_cons, Bool.or_eq_false_iff] at hany
    simp only [storeGet, List.cons_append, List.find?_cons]
    have h2 : (decide (p.1 = k)) = false := hany.1
    rw [h2]
    exact storeGet_append_single_self k v ps hany.2

/-- Writing key `k` makes its value `v`. -/
theorem storeGet_insert_self (k v : List Nat) (s : Store) :
    storeGet (storeInsert k v s) k = some v := by
  unfold storeInsert
  split
  · next hany => exact storeGet_map_self k v s hany
  · next hany => exact storeGet_append_single_self k v s (Bool.eq_false_iff.mpr hany)

/-! ## Key-disjointness facts -/

theorem usizeToLeBytes_length (n : Nat) : (usizeToLeBytes n).length = 8 := rfl

theorem le8_ne_kMAGIC (n : Nat) : usizeToLeBytes n ≠ kMAGIC := fun h => by
  have h2 := congrArg List.length h
  rw [usizeToLeBytes_length] at h2
  exact absurd h2 (by decide)

theorem le8_ne_kINFO (n : Nat) : usizeToLeBytes n ≠ kINFO := fun h => by
  have h2 := congrArg List.length h
  rw [usizeToLeBytes_length] at h2
  exact absurd h2 (by decide)

theorem le8_ne_kHEADER (n : Nat) : usizeToLeBytes n ≠ kHEADER := fun h => by
  have h2 := congrArg List.length h
  rw [usizeToLeBytes_length] at h2
  exact absurd h2 (by decide)

theorem le8_ne_kINDEX (n : Nat) : usizeToLeBytes n ≠ kINDEX := fun h => by
  have h2 := congrArg List.length h
  rw [usizeToLeBytes_length] at h2
  exact absurd h2 (by decide)

theorem leBytesToNat_usizeToLeBytes {n : Nat} (h : n < 2 ^ 64) :
    leBytesToNat (usizeToLeBytes n) = n := by
  unfold leBytesToNat usizeToLeBytes
  simp only [List.foldr]
  omega

theorem usizeToLeBytes_injOn {a b : Nat} (ha : a < 2 ^ 64) (hb : b < 2 ^ 64)
    (h : usizeToLeBytes a = usizeToLeBytes b) : a = b := by
  have := congrArg leBytesToNat h
  rwa [leBytesToNat_usizeToLeBytes ha, leBytesToNat_usizeToLeBytes hb] at this

/-! ## Claim C5 — `Log::new` magic check -/

/-- C5: opening an existing store fails when `MAGIC` is absent, fails when
the stored value's ASCII-uppercased bytes differ from the 32-byte
signature, and succeeds (returning the handle on that store) exactly when
they match. -/
theorem log_new_magic_spec (db : Store) :
    (storeGet db kMAGIC = none →
      Log.new db = .error "Uninitalized database. Use Log::new_init() instead of Log::new()") ∧
    (∀ v, storeGet db kMAGIC = some v → v.map byteUpper ≠ VEELOG_MAGIC →
      Log.new db = .error "MAGIC exists and does not match") ∧
    (∀ v, storeGet db kMAGIC = some v → v.map byteUpper = VEELOG_MAGIC →
      Log.new db = .ok ⟨db⟩) := by
  refine ⟨?_, ?_, ?_⟩
  · intro h
    unfold Log.new
    rw [h]
  · intro v h hne
    unfold Log.new
    rw [h]
    simp only [if_neg hne]
  · intro v h heq
    unfold Log.new
    rw [h]
    simp only [if_pos heq]

/-- Witness for C5: the empty store, a store holding a foreign `MAGIC`
value, and a store holding the signature in lower case. -/
theorem log_new_magic_spec_witness :
    Log.new ([] : Store) =
      .error "Uninitalized database. Use Log::new_init() instead of Log::new()" ∧
    Log.new [(kMAGIC, [1, 2, 3])] = .error "MAGIC exists and does not match" ∧
    Log.new [(kMAGIC, strBytes "d784cb9e58d279b42fda4d0a5fc7da80")] =
      .ok ⟨[(kMAGIC, strBytes "d784cb9e58d279b42fda4d0a5fc7da80")]⟩ := by
  refine ⟨?_, ?_, ?_⟩
  · exact (log_new_magic_spec []).1 (by rfl)
  · exact (log_new_magic_spec _).2.1 [1, 2, 3] (by rfl) (by decide)
  · exact (log_new_magic_spec _).2.2 _ (by rfl) (by decide)

/-! ## Claim C6 — `Log::new_init` creation contract -/

/-- C6: creating over a non-empty store fails and leaves the store
untouched; creating over the empty store writes exactly `MAGIC`, `INFO`,
the encoded header and a zero `INDEX`. -/
theorem new_init_spec (db : Store) (header : LogHeader) :
    (db ≠ [] → Log.new_init db header =
      (.error "Non-empty database used in Log::new_init()", db)) ∧
    (db = [] → Log.new_init db header =
      (.ok ⟨[(kMAGIC, VEELOG_MAGIC), (kINFO, infoString),
             (kHEADER, encode_header header), (kINDEX, usizeToLeBytes 0)]⟩,
       [(kMAGIC, VEELOG_MAGIC), (kINFO, infoString),
        (kHEADER, encode_header header), (kINDEX, usizeToLeBytes 0)])) := by
  constructor
  · intro hne
    unfold Log.new_init
    rw [if_neg (by simpa [storeIsEmpty, List.isEmpty_iff] using hne)]
  · intro he
    subst he
    rfl

/-- Witness for C6 on both branches. -/
theorem new_init_spec_witness :
    Log.new_init [([0], [0])] ⟨[], [], []⟩ =
      (.error "Non-empty database used in Log::new_init()", [([0], [0])]) ∧
    Log.new_init [] ⟨[], [], []⟩ =
      (.ok ⟨[(kMAGIC, VEELOG_MAGIC), (kINFO, infoString),
             (kHEADER, encode_header ⟨[], [], []⟩), (kINDEX, usizeToLeBytes 0)]⟩,
       [(kMAGIC, VEELOG_MAGIC), (kINFO, infoString),
        (kHEADER, encode_header ⟨[], [], []⟩), (kINDEX, usizeToLeBytes 0)]) := by
  constructor
  · exact (new_init_spec [([0], [0])] ⟨[], [], []⟩).1 (by simp)
  · exact (new_init_spec [] ⟨[], [], []⟩).2 rfl

/-! ## Claim C10 — record writes cannot touch the reserved keys -/

/-- C10: `modify_record` writes only the 8-byte record key, and
`insert_record` additionally only `INDEX`; since the reserved keys have
lengths 5, 4, 6 and 5, the stored `MAGIC`, `INFO` and `HEADER` values are
unchanged by both operations. -/
theorem record_ops_frame (s : Store) (i : Nat) (r : LogRecord) :
    (∀ k, k ≠ usizeToLeBytes i →
      storeGet (Log.modify_record s i r) k = storeGet s k) ∧
    (storeGet (Log.modify_record s i r) kMAGIC = storeGet s kMAGIC ∧
     storeGet (Log.modify_record s i r) kINFO = storeGet s kINFO ∧
     storeGet (Log.modify_record s i r) kHEADER = storeGet s kHEADER) ∧
    (∀ idx s2, Log.get_idx s = some idx → Log.insert_record s r = some s2 →
      (∀ k, k ≠ kINDEX → k ≠ usizeToLeBytes idx → storeGet s2 k = storeGet s k) ∧
      storeGet s2 kMAGIC = storeGet s kMAGIC ∧
      storeGet s2 kINFO = storeGet s kINFO ∧
      storeGet s2 kHEADER = storeGet s kHEADER) := by
  have hmod : ∀ k, k ≠ usizeToLeBytes i →
      storeGet (Log.modify_record s i r) k = storeGet s k := by
    intro k hk
    unfold Log.modify_record
    exact storeGet_insert_ne s hk
  refine ⟨hmod, ⟨?_, ?_, ?_⟩, ?_⟩
  · exact hmod kMAGIC (fun h => le8_ne_kMAGIC i h.symm)
  · exact hmod kINFO (fun h => le8_ne_kINFO i h.symm)
  · exact hmod kHEADER (fun h => le8_ne_kHEADER i h.symm)
  · intro idx s2 hidx hins
    have hs2 : s2 = Log.set_idx (Log.modify_record s idx r) (idx + 1) := by
      unfold Log.insert_record at hins
      rw [hidx] at hins
      exact (Option.some.injEq _ _).mp hins.symm
    have hframe : ∀ k, k ≠ kINDEX → k ≠ usizeToLeBytes idx →
        storeGet s2 k = storeGet s k := by
      intro k h1 h2
      rw [hs2]
      unfold Log.set_idx Log.modify_record
      rw [storeGet_insert_ne _ h1, storeGet_insert_ne _ h2]
    refine ⟨hframe, ?_, ?_, ?_⟩
    · exact hframe kMAGIC (by decide) (fun h => le8_ne_kMAGIC idx h.symm)
    · exact hframe kINFO (by decide) (fun h => le8_ne_kINFO idx h.symm)
    · exact hframe kHEADER (by decide) (fun h => le8_ne_kHEADER idx h.symm)

/-- Witness for C10 on a freshly created store. -/
theorem record_ops_frame_witness :
    storeGet (Log.modify_record (Log.init_db [] ⟨[], [], []⟩) 3 ⟨[]⟩) kMAGIC =
      storeGet (Log.init_db [] ⟨[], [], []⟩) kMAGIC ∧
    storeGet (Log.set_idx (Log.modify_record (Log.init_db [] ⟨[], [], []⟩) 0 ⟨[]⟩) 1) kHEADER =
      storeGet (Log.init_db [] ⟨[], [], []⟩) kHEADER := by
  constructor
  · exact (record_ops_frame (Log.init_db [] ⟨[], [], []⟩) 3 ⟨[]⟩).2.1.1
  · have h := (record_ops_frame (Log.init_db [] ⟨[], [], []⟩) 0 ⟨[]⟩).2.2 0
      (Log.set_idx (Log.modify_record (Log.init_db [] ⟨[], [], []⟩) 0 ⟨[]⟩) 1)
      (by rfl) (by rfl)
    exact h.2.2.2

/-! ## Codec roundtrip -/

theorem decNat_encNat (n : Nat) (rest : List Nat) :
    decNat (encNat n ++ rest) = some (n, rest) := by
  induction n with
  | zero => rfl
  | succ m ih =>
    show decNat (List.replicate (m + 1) 1 ++ [0] ++ rest) = _
    rw [List.replicate_succ, List.cons_append, List.cons_append]
    show (match decNat (List.replicate m 1 ++ [0] ++ rest) with
      | some (n, r) => some (n + 1, r)
      | none => none) = _
    rw [show List.replicate m 1 ++ [0] ++ rest = encNat m ++ rest by simp [encNat], ih]

theorem decBytes_encBytes (b rest : List Nat) :
    decBytes (encBytes b ++ rest) = some (b, rest) := by
  unfold decBytes encBytes
  rw [List.append_assoc, decNat_encNat]
  simp [List.take_left', List.drop_left']

theorem decFT_encFT (ft : FieldType) (rest : List Nat) :
    decFT (encFT ft ++ rest) = some (ft, rest) := by
  cases ft <;>
    simp only [encFT, decFT, ftTag, List.append_assoc, decNat_encNat, decBytes_encBytes] <;>
    rfl

theorem decPair_encPair (p : FieldType × List Nat) (rest : List Nat) :
    decPair (encPair p ++ rest) = some (p, rest) := by
  simp only [decPair, encPair, List.append_assoc, decFT_encFT, decBytes_encBytes]

theorem decPairs_encPairs (ps : List (FieldType × List Nat)) (rest : List Nat) :
    decPairs ps.length ((ps.map encPair).flatten ++ rest) = some (ps, rest) := by
  induction ps generalizing rest with
  | nil => rfl
  | cons p ps ih =>
    show decPairs (ps.length + 1) ((encPair p :: ps.map encPair).flatten ++ rest) = _
    simp only [List.flatten_cons, List.append_assoc, decPairs, decPair_encPair, ih]

/-- The bincode stand-in is lossless on records. -/
theorem decode_encode_record (r : LogRecord) :
    decode_record (encode_record r) = some r := by
  have h := decPairs_encPairs r.map []
  rw [List.append_nil] at h
  simp only [decode_record, encode_record, decNat_encNat, h]

/-! ## Index bounds -/

theorem leBytesToNat_lt : ∀ v : List Nat, leBytesToNat v < 256 ^ v.length
  | [] => by simp [leBytesToNat]
  | b :: v => by
    have ih := leBytesToNat_lt v
    show b % 256 + 256 * leBytesToNat v < 256 ^ (v.length + 1)
    have h1 : b % 256 < 256 := Nat.mod_lt _ (by omega)
    have h2 : 256 * leBytesToNat v + 256 ≤ 256 * 256 ^ v.length := by
      have := Nat.mul_le_mul_left 256 (Nat.succ_le_of_lt ih)
      omega
    have h3 : 256 ^ (v.length + 1) = 256 * 256 ^ v.length := by ring
    omega

theorem get_idx_lt {s : Store} {n : Nat} (h : Log.get_idx s = some n) : n < 2 ^ 64 := by
  unfold Log.get_idx at h
  split at h
  · next v hv =>
    split at h
    · next hlen =>
      have := leBytesToNat_lt v
      rw [hlen] at this
      cases h
      norm_num at this ⊢
      omega
    · exact absurd h (by simp)
  · exact absurd h (by simp)

/-! ## Single-step and iterated insertion -/

/-- One `insert_record` step: the slot for the current index receives the
encoded record, the index advances by one, everything else is untouched. -/
theorem insert_record_step {s : Store} {n : Nat} (r : LogRecord)
    (hidx : Log.get_idx s = some n) (hlt : n + 1 < 2 ^ 64) :
    ∃ s2, Log.insert_record s r = some s2 ∧
      Log.get_idx s2 = some (n + 1) ∧
      storeGet s2 (usizeToLeBytes n) = some (encode_record r) ∧
      (∀ k, k ≠ kINDEX → k ≠ usizeToLeBytes n → storeGet s2 k = storeGet s k) := by
  refine ⟨Log.set_idx (Log.modify_record s n r) (n + 1), ?_, ?_, ?_, ?_⟩
  · unfold Log.insert_record
    rw [hidx]
  · unfold Log.get_idx Log.set_idx
    rw [storeGet_insert_self]
    simp [usizeToLeBytes_length, leBytesToNat_usizeToLeBytes hlt]
  · unfold Log.set_idx Log.modify_record
    rw [storeGet_insert_ne _ (le8_ne_kINDEX n), storeGet_insert_self]
  · intro k h1 h2
    unfold Log.set_idx Log.modify_record
    rw [storeGet_insert_ne _ h1, storeGet_insert_ne _ h2]

theorem insertAll_spec (rs : List LogRecord) :
    ∀ (s : Store) (n : Nat), Log.get_idx s = some n → n + rs.length < 2 ^ 64 →
    ∃ s2, insertAll s rs = some s2 ∧
      Log.get_idx s2 = some (n + rs.length) ∧
      (∀ i (hi : i < rs.length),
        storeGet s2 (usizeToLeBytes (n + i)) = some (encode_record (rs.get ⟨i, hi⟩))) ∧
      (∀ k, k ≠ kINDEX → (∀ i, i < rs.length → k ≠ usizeToLeBytes (n + i)) →
        storeGet s2 k = storeGet s k) := by
  induction rs with
  | nil =>
    intro s n hidx _
    exact ⟨s, rfl, by simpa using hidx, fun i hi => absurd hi (by simp), fun k _ _ => rfl⟩
  | cons r rs ih =>
    intro s n hidx hlt
    have hn1 : n + 1 < 2 ^ 64 := by
      have : rs.length + 1 = (r :: rs).length := by simp
      omega
    obtain ⟨s1, hins, hidx1, hslot1, hframe1⟩ := insert_record_step r hidx hn1
    have hlt1 : (n + 1) + rs.length < 2 ^ 64 := by
      have : (r :: rs).length = rs.length + 1 := by simp
      omega
    obtain ⟨s2, hall, hidx2, hslots, hframe⟩ := ih s1 (n + 1) hidx1 hlt1
    refine ⟨s2, ?_, ?_, ?_, ?_⟩
    · simp only [insertAll, hins, hall]
    · rw [hidx2]
      congr 1
      simp only [List.length_cons]
      omega
    · intro i hi
      match i with
      | 0 =>
        have hne : ∀ j, j < rs.length → usizeToLeBytes n ≠ usizeToLeBytes (n + 1 + j) := by
          intro j hj heq
          have ha : n < 2 ^ 64 := by omega
          have hb : n + 1 + j < 2 ^ 64 := by
            simp only [List.length_cons] at hlt
            omega
          have := usizeToLeBytes_injOn ha hb heq
          omega
        have h0 := hframe (usizeToLeBytes n) (le8_ne_kINDEX n) hne
        rw [Nat.add_zero, h0, hslot1]
        rfl
      | i + 1 =>
        have hi' : i < rs.length := by simpa using hi
        have := hslots i hi'
        rw [show n + 1 + i = n + (i + 1) by omega] at this
        rw [this]
        rfl
    · intro k h1 h2
      have h3 : ∀ i, i < rs.length → k ≠ usizeToLeBytes (n + 1 + i) := by
        intro i hi
        have := h2 (i + 1) (by simpa using Nat.succ_lt_succ hi)
        rwa [show n + (i + 1) = n + 1 + i by omega] at this
      rw [hframe k h1 h3, hframe1 k h1 (h2 0 (by simp))]

/-! ## Claim C2 — index monotonicity from a fresh store -/

/-- C2: from a freshly created store, `N` successful inserts leave
`get_index = N` with every record `0 ≤ i < N` retrievable as inserted, and
each single insert reads the index, writes that slot, and advances the
index by exactly one. -/
theorem insert_monotonic_spec (rs : List LogRecord) (header : LogHeader)
    (hlen : rs.length < 2 ^ 64) :
    ((insertAll (Log.init_db [] header) rs).isSome ∧
     Log.get_idx ((insertAll (Log.init_db [] header) rs).getD []) = some rs.length ∧
     ∀ i (hi : i < rs.length),
       Log.get_record ((insertAll (Log.init_db [] header) rs).getD []) i =
         .found (rs.get ⟨i, hi⟩)) ∧
    (∀ (s : Store) (n : Nat) (r : LogRecord), Log.get_idx s = some n → n + 1 < 2 ^ 64 →
      ∃ s2, Log.insert_record s r = some s2 ∧
        Log.get_idx s2 = some (n + 1) ∧
        storeGet s2 (usizeToLeBytes n) = some (encode_record r)) := by
  constructor
  · have hidx0 : Log.get_idx (Log.init_db [] header) = some 0 := by
      unfold Log.get_idx Log.init_db
      rw [storeGet_insert_self]
      rfl
    obtain ⟨s2, hall, hidx2, hslots, _⟩ :=
      insertAll_spec rs (Log.init_db [] header) 0 hidx0 (by omega)
    rw [hall]
    refine ⟨rfl, by simpa using hidx2, ?_⟩
    intro i hi
    have h := hslots i hi
    rw [Nat.zero_add] at h
    show Log.get_record s2 i = _
    simp only [Log.get_record, h, decode_encode_record]
  · intro s n r hidx hlt
    obtain ⟨s2, h1, h2, h3, _⟩ := insert_record_step r hidx hlt
    exact ⟨s2, h1, h2, h3⟩

/-- Witness for C2: two concrete records inserted into a fresh store. -/
theorem insert_monotonic_spec_witness :
    (insertAll (Log.init_db [] ⟨[], [], []⟩)
      [⟨[(FieldType.WorkedCall, strBytes "N0CALL")]⟩,
       ⟨[(FieldType.GridSquare, strBytes "AA00")]⟩]).isSome ∧
    Log.get_idx ((insertAll (Log.init_db [] ⟨[], [], []⟩)
      [⟨[(FieldType.WorkedCall, strBytes "N0CALL")]⟩,
       ⟨[(FieldType.GridSquare, strBytes "AA00")]⟩]).getD []) = some 2 ∧
    Log.get_record ((insertAll (Log.init_db [] ⟨[], [], []⟩)
      [⟨[(FieldType.WorkedCall, strBytes "N0CALL")]⟩,
       ⟨[(FieldType.GridSquare, strBytes "AA00")]⟩]).getD []) 1 =
      .found ⟨[(FieldType.GridSquare, strBytes "AA00")]⟩ := by
  have h := insert_monotonic_spec
    [⟨[(FieldType.WorkedCall, strBytes "N0CALL")]⟩,
     ⟨[(FieldType.GridSquare, strBytes "AA00")]⟩] ⟨[], [], []⟩ (by norm_num)
  exact ⟨h.1.1, h.1.2.1, h.1.2.2 1 (by norm_num)⟩

/-! ## Tokenizer lemmas: fuel adequacy and skipping -/

theorem dropWhile_length_le (p : Char → Bool) :
    ∀ l : List Char, (l.dropWhile p).length ≤ l.length
  | [] => Nat.le_refl _
  | a :: l => by
    rw [List.dropWhile_cons]
    split
    · exact Nat.le_succ_of_le (dropWhile_length_le p l)
    · exact Nat.le_refl _

theorem dropWhile_length_lt {p : Char → Bool} {l : List Char}
    (h : (l.takeWhile p).isEmpty = false) : (l.dropWhile p).length < l.length := by
  cases l with
  | nil => simp [List.takeWhile_nil] at h
  | cons a l =>
    by_cases hp : p a
    · rw [List.dropWhile_cons, if_pos hp]
      exact Nat.lt_succ_of_le (dropWhile_length_le p l)
    · rw [List.takeWhile_cons, if_neg hp] at h
      simp at h

theorem matchClose_length : ∀ {r3 : List Char} {ty : Option Char} {r4 : List Char},
    matchClose r3 = some (ty, r4) → r4.length < r3.length := by
  intro r3 ty r4 h
  match r3, h with
  | c :: rest, h =>
    simp only [matchClose] at h
    split at h
    · cases h
      simp
    · split at h
      · split at h
        · split at h
          · cases h
            simp only [List.length_cons]
            omega
          · exact absurd h (by simp)
        · exact absurd h (by simp)
      · exact absurd h (by simp)

theorem matchTag_rest_length :
    ∀ {cs : List Char} {t : Token} {rest : List Char},
      matchTag cs = some (t, rest) → rest.length < cs.length := by
  intro cs t rest h
  match cs, h with
  | c :: cs1, h =>
    simp only [matchTag] at h
    split at h
    case isFalse => exact absurd h (by simp)
    case isTrue =>
      split at h
      · exact absurd h (by simp)
      · split at h
        · exact absurd h (by simp)
        · next r1ne c2 r2 heq =>
          split at h
          case isFalse => exact absurd h (by simp)
          case isTrue =>
            split at h
            case isTrue => exact absurd h (by simp)
            case isFalse hdigs =>
              split at h
              case h_2 => exact absurd h (by simp)
              case h_1 ty r4 hclose =>
                split at h
                case isTrue => exact absurd h (by simp)
                case isFalse hv =>
                  cases h
                  have h1 : (r4.dropWhile isValChar).length < r4.length :=
                    dropWhile_length_lt (by simpa using hv)
                  have h2 : r4.length < (r2.dropWhile isDigitChar).length := matchClose_length hclose
                  have h3 : (r2.dropWhile isDigitChar).length ≤ r2.length :=
                    dropWhile_length_le _ _
                  have h4 : (c2 :: r2).length = (cs1.dropWhile isNameChar).length := by rw [heq]
                  have h5 : (cs1.dropWhile isNameChar).length ≤ cs1.length :=
                    dropWhile_length_le _ _
                  simp only [List.length_cons] at h4 ⊢
                  omega

theorem parseTokensFuel_nil : ∀ f, parseTokensFuel f [] = []
  | 0 => rfl
  | _ + 1 => rfl

theorem parseTokensFuel_congr :
    ∀ (f g : Nat) (cs : List Char), cs.length ≤ f → cs.length ≤ g →
      parseTokensFuel f cs = parseTokensFuel g cs
  | 0, g, cs, hf, _ => by
    have : cs = [] := List.length_eq_zero.mp (Nat.le_zero.mp hf)
    subst this
    rw [parseTokensFuel_nil, parseTokensFuel_nil]
  | f + 1, 0, cs, _, hg => by
    have : cs = [] := List.length_eq_zero.mp (Nat.le_zero.mp hg)
    subst this
    rw [parseTokensFuel_nil, parseTokensFuel_nil]
  | f + 1, g + 1, cs, hf, hg => by
    cases hm : matchTag cs with
    | some tr =>
      obtain ⟨t, rest⟩ := tr
      have hlt := matchTag_rest_length hm
      have ih := parseTokensFuel_congr f g rest (by omega) (by omega)
      simp only [parseTokensFuel, hm, ih]
    | none =>
      cases cs with
      | nil => rw [parseTokensFuel_nil, parseTokensFuel_nil]
      | cons c cs1 =>
        simp only [List.length_cons] at hf hg
        have ih := parseTokensFuel_congr f g cs1 (by omega) (by omega)
        simp only [parseTokensFuel, hm, ih]

theorem parse_tokens_match {cs : List Char} {t : Token} {rest : List Char}
    (h : matchTag cs = some (t, rest)) :
    parse_tokens cs = t :: parse_tokens rest := by
  match cs with
  | [] => exact absurd h (by simp [matchTag])
  | c :: cs1 =>
    show parseTokensFuel (cs1.length + 1) (c :: cs1) = _
    have hred : parseTokensFuel (cs1.length + 1) (c :: cs1) =
        t :: parseTokensFuel cs1.length rest := by
      show (match matchTag (c :: cs1) with
        | some (t, rest) => t :: parseTokensFuel cs1.length rest
        | none =>
          match c :: cs1 with
          | [] => []
          | _ :: cs1 => parseTokensFuel cs1.length cs1) = _
      rw [h]
    rw [hred]
    have hlt := matchTag_rest_length h
    simp only [List.length_cons] at hlt
    rw [parseTokensFuel_congr cs1.length rest.length rest (by omega) (Nat.le_refl _)]
    rfl

theorem parse_tokens_skip {c : Char} {cs : List Char} (h : matchTag (c :: cs) = none) :
    parse_tokens (c :: cs) = parse_tokens cs := by
  show parseTokensFuel (c :: cs).length (c :: cs) = parseTokensFuel cs.length cs
  simp only [List.length_cons, parseTokensFuel, h]

theorem matchTag_not_lt {c : Char} (cs : List Char) (h : ¬ c = '<') :
    matchTag (c :: cs) = none := by
  simp only [matchTag]
  rw [if_neg h]

theorem parse_tokens_skip_not_lt {c : Char} {cs : List Char} (h : ¬ c = '<') :
    parse_tokens (c :: cs) = parse_tokens cs :=
  parse_tokens_skip (matchTag_not_lt cs h)

theorem parse_tokens_skip_run {pre : List Char} (h : ∀ c ∈ pre, ¬ c = '<') :
    ∀ cs, parse_tokens (pre ++ cs) = parse_tokens cs := by
  induction pre with
  | nil => intro cs; rfl
  | cons a pre ih =>
    intro cs
    rw [List.cons_append, parse_tokens_skip_not_lt (h a (by simp)),
      ih (fun c hc => h c (by simp [hc]))]

/-- `takeWhile`/`dropWhile` on an append that stops exactly at the boundary. -/
theorem takeWhile_append_stop {p : Char → Bool} :
    ∀ (xs ys : List Char), (∀ c ∈ xs, p c = true) →
      (∀ d, ys.head? = some d → p d = false) →
      (xs ++ ys).takeWhile p = xs ∧ (xs ++ ys).dropWhile p = ys
  | [], ys, _, h2 => by
    cases ys with
    | nil => exact ⟨rfl, rfl⟩
    | cons y ys =>
      have hy := h2 y rfl
      constructor
      · simp [List.takeWhile_cons, hy]
      · simp [List.dropWhile_cons, hy]
  | x :: xs, ys, h1, h2 => by
    have hx : p x = true := h1 x (by simp)
    have ih := takeWhile_append_stop (p := p) xs ys
      (fun c hc => h1 c (by simp [hc])) h2
    constructor
    · simp [List.cons_append, List.takeWhile_cons, hx, ih.1]
    · simp [List.cons_append, List.dropWhile_cons, hx, ih.2]

/-! ## Claim C7 — the read scan

The source's `get_record` calls
`.expect(&format!("Could not decode record {}", idx))`, so a slot that is
*present but undecodable* panics the scan instead of being skipped; only
absent slots (and store-level read errors) are skipped.  The claim as
stated is therefore false; the theorems below give the counterexample and
the corrected statement. -/

theorem getRecordsAux_spec (s : Store) :
    ∀ n : Nat, (∀ i, i < n → Log.get_record s i ≠ .panicked) →
      getRecordsAux s n = some ((List.range n).filterMap (fun i =>
        match Log.get_record s i with
        | .found r => some r
        | _ => none))
  | 0, _ => rfl
  | n + 1, hok => by
    have ih := getRecordsAux_spec s n (fun i hi => hok i (by omega))
    show (match getRecordsAux s n with
      | some pre =>
        match Log.get_record s n with
        | .found v => some (pre ++ [v])
        | .absent => some pre
        | .panicked => none
      | none => none) = _
    rw [ih, List.range_succ, List.filterMap_append]
    cases hr : Log.get_record s n with
    | found v => simp [hr]
    | absent => simp [hr]
    | panicked => exact absurd hr (hok n (by omega))

/-- C7 (corrected): when `INDEX` is readable and no slot below it holds
undecodable bytes, `get_records` returns the records of the decodable
slots `0 ≤ i < INDEX` in index order, skipping absent slots. -/
theorem get_records_spec (s : Store) (n : Nat)
    (hidx : Log.get_idx s = some n)
    (hok : ∀ i, i < n → Log.get_record s i ≠ .panicked) :
    Log.get_records s = some ((List.range n).filterMap (fun i =>
      match Log.get_record s i with
      | .found r => some r
      | _ => none)) := by
  unfold Log.get_records
  rw [hidx]
  exact getRecordsAux_spec s n hok

/-- C7 counterexample: a store whose slot 0 holds bytes the codec rejects
makes `get_records` fail the whole scan (the modelled panic), refuting
"skips every index whose slot fails to decode and never fails". -/
theorem get_records_panics_on_undecodable_slot :
    Log.get_records [(kINDEX, usizeToLeBytes 1), (usizeToLeBytes 0, [9])] = none := by
  decide

/-- Witness for the corrected C7: `INDEX = 3` with decodable slots 0 and 2
and an absent slot 1 yields exactly the two records in order. -/
theorem get_records_spec_witness :
    Log.get_records
      [(kINDEX, usizeToLeBytes 3),
       (usizeToLeBytes 0, encode_record ⟨[(FieldType.WorkedCall, strBytes "N0CALL")]⟩),
       (usizeToLeBytes 2, encode_record ⟨[(FieldType.QTH, strBytes "HERE")]⟩)] =
      some [⟨[(FieldType.WorkedCall, strBytes "N0CALL")]⟩,
            ⟨[(FieldType.QTH, strBytes "HERE")]⟩] := by
  have h := get_records_spec
    [(kINDEX, usizeToLeBytes 3),
     (usizeToLeBytes 0, encode_record ⟨[(FieldType.WorkedCall, strBytes "N0CALL")]⟩),
     (usizeToLeBytes 2, encode_record ⟨[(FieldType.QTH, strBytes "HERE")]⟩)]
    3 (by decide) (by decide)
  exact h

/-! ## Claim C1 — missing date/time handling in the importer

In the source,

```rust
if let Some(d) = date {
    if let Some(t) = time { … insert_timestamp … }
} else {
    bail!("ADIF record had no date and/or time fields");
}
self.insert_record(log_record)?;
```

the `else` belongs to the *outer* `if let` only.  A record carrying
`QSO_DATE` but no `TIME_ON` therefore falls through both branches and is
inserted **without any `Timestamp` field**, while the claim (and the
spec's own stated invariant, the error message's wording, and the
symmetric `TIME_ON`-without-`QSO_DATE` path, which *is* rejected) require
it to be rejected with a fatal missing-date/time error and not stored. -/

/-- C1 (code bug evidence): importing a record with `QSO_DATE=20250728`
and `CALL=N0CALL` but no `TIME_ON` into a fresh store *succeeds*, stores
the record at slot 0 with no `Timestamp` field, and advances the index —
whereas the mirror-image record with only `TIME_ON` is rejected without
touching the store. -/
theorem import_date_without_time_inserted :
    (Log.import_adif (Log.init_db [] ⟨[], [], []⟩)
      ⟨⟨[]⟩, [⟨[(strChars "QSO_DATE", ADIFType.Str (strChars "20250728")),
               (strChars "CALL", ADIFType.Str (strChars "N0CALL"))]⟩]⟩ =
      .ok (Log.set_idx
            (Log.modify_record (Log.init_db [] ⟨[], [], []⟩) 0
              ⟨[(FieldType.WorkedCall, strBytes "N0CALL")]⟩) 1) ∧
     Log.get_record
       (Log.set_idx
          (Log.modify_record (Log.init_db [] ⟨[], [], []⟩) 0
            ⟨[(FieldType.WorkedCall, strBytes "N0CALL")]⟩) 1) 0 =
       .found ⟨[(FieldType.WorkedCall, strBytes "N0CALL")]⟩ ∧
     LogRecord.get_field ⟨[(FieldType.WorkedCall, strBytes "N0CALL")]⟩ .Timestamp = none) ∧
    Log.import_adif (Log.init_db [] ⟨[], [], []⟩)
      ⟨⟨[]⟩, [⟨[(strChars "TIME_ON", ADIFType.Str (strChars "024813")),
               (strChars "CALL", ADIFType.Str (strChars "N0CALL"))]⟩]⟩ =
      .fail (Log.init_db [] ⟨[], [], []⟩) "ADIF record had no date and/or time fields" := by
  refine ⟨⟨?_, ?_, ?_⟩, ?_⟩ <;> decide

/-! ## Claim C9 — non-numeric length fields

The tag regex requires `(\d+)` for the length, so a tag such as
`<CALL:xx>` simply never matches: `captures_iter` silently resumes at the
next character, and the rest of the text is tokenized normally.  The
`.expect("len in token not integer")` the claim alludes to is unreachable
for a non-numeric length (the regex cannot capture one).  The claim as
stated (a hard parse failure) is false; the corrected statement is that
such a tag is silently skipped. -/

/-- C9 counterexample: a tag with the non-numeric length `xx` is dropped
and the remaining text still tokenizes (no failure of the whole parse). -/
theorem bad_length_tag_not_fatal :
    parse_tokens (strChars "<CALL:xx>N0CALL<GRIDSQUARE:4>AA00") =
      [⟨strChars "GRIDSQUARE", 4, none, strChars "AA00"⟩] := by
  decide

/-- C9 (corrected): a tag whose length field starts with a non-digit is
not matched at all — tokenization of the surrounding text is exactly the
tokenization without that tag, a silent skip rather than a hard failure. -/
theorem bad_length_tag_skipped (name bad val rest : List Char)
    (hname : name ≠ [] ∧ ∀ c ∈ name, isNameChar c = true)
    (hbadhead : ∀ d, bad.head? = some d → isDigitChar d = false)
    (hbadne : bad ≠ []) (hbadlt : '<' ∉ bad) (hvallt : '<' ∉ val) :
    parse_tokens ('<' :: (name ++ ':' :: (bad ++ '>' :: val)) ++ rest) = parse_tokens rest := by
  have hfail : matchTag ('<' :: ((name ++ ':' :: (bad ++ '>' :: val)) ++ rest)) = none := by
    cases bad with
    | nil => exact absurd rfl hbadne
    | cons d bad2 =>
      have hd : isDigitChar d = false := hbadhead d rfl
      have hempty : name.isEmpty = false := by
        cases name with
        | nil => exact absurd rfl hname.1
        | cons _ _ => rfl
      have hsplit := takeWhile_append_stop (p := isNameChar) name
        (':' :: (d :: (bad2 ++ '>' :: (val ++ rest)))) hname.2
        (by intro e he; cases he; rfl)
      simp [matchTag, List.append_assoc, hsplit.1, hsplit.2, hempty, hd,
        List.takeWhile_cons]
  have hpre : ∀ c ∈ (name ++ ':' :: (bad ++ '>' :: val)), ¬ c = '<' := by
    intro c hc
    simp only [List.mem_append, List.mem_cons] at hc
    rcases hc with hc | hc | hc | hc | hc
    · intro he
      subst he
      exact absurd (hname.2 '<' hc) (by decide)
    · subst hc
      decide
    · exact fun he => hbadlt (he ▸ hc)
    · subst hc
      decide
    · exact fun he => hvallt (he ▸ hc)
  simp only [List.cons_append]
  rw [parse_tokens_skip hfail]
  exact parse_tokens_skip_run hpre rest

/-- Witness for the corrected C9 at the counterexample's input. -/
theorem bad_length_tag_skipped_witness :
    parse_tokens ('<' :: (strChars "CALL" ++ ':' :: (strChars "xx" ++ '>' :: strChars "N0CALL"))
        ++ strChars "<GRIDSQUARE:4>AA00") =
      parse_tokens (strChars "<GRIDSQUARE:4>AA00") :=
  bad_length_tag_skipped (strChars "CALL") (strChars "xx") (strChars "N0CALL")
    (strChars "<GRIDSQUARE:4>AA00") ⟨by decide, by decide⟩ (by decide) (by decide)
    (by decide) (by decide)

/-! ## Claim C8 — serialize/parse round trip

### Positional decomposition of appends -/

theorem append_eq_append_cons {s t a b : List Char} {c : Char}
    (h : s ++ t = a ++ c :: b) :
    (∃ b1, s = a ++ c :: b1 ∧ b = b1 ++ t) ∨ (∃ a1, a = s ++ a1 ∧ t = a1 ++ c :: b) := by
  induction s generalizing a with
  | nil => exact Or.inr ⟨a, rfl, by simpa using h⟩
  | cons x s ih =>
    cases a with
    | nil =>
      rw [List.nil_append] at h
      rw [List.cons_append] at h
      injection h with hx h2
      exact Or.inl ⟨s, by rw [hx, List.nil_append], h2.symm⟩
    | cons y a =>
      rw [List.cons_append, List.cons_append] at h
      injection h with hxy h2
      rcases ih h2 with ⟨b1, hs, hb⟩ | ⟨a1, ha, ht⟩
      · exact Or.inl ⟨b1, by rw [List.cons_append, hs, hxy], hb⟩
      · exact Or.inr ⟨a1, by rw [List.cons_append, ha, hxy], ht⟩

theorem append_cons_split_left {s t a b : List Char} {c : Char}
    (h : s ++ t = a ++ c :: b) (hlen : a.length < s.length) :
    ∃ b1, s = a ++ c :: b1 ∧ b = b1 ++ t := by
  rcases append_eq_append_cons h with hL | ⟨a1, ha, _⟩
  · exact hL
  · exfalso
    have := congrArg List.length ha
    simp only [List.length_append] at this
    omega

/-! ### `LtShape` algebra -/

theorem ltShape_no_lt {Q : List Char → Prop} {s : List Char} (h : '<' ∉ s) :
    LtShape Q s := by
  intro a b heq
  exact absurd (by rw [heq]; simp) h

theorem ltShape_append {Q : List Char → Prop} (hQ : ∀ b t, Q b → Q (b ++ t))
    {s t : List Char} (hs : LtShape Q s) (ht : LtShape Q t) : LtShape Q (s ++ t) := by
  intro a b heq
  rcases append_eq_append_cons heq with ⟨b1, hs1, hb⟩ | ⟨a1, _, ht1⟩
  · rw [hb]
    exact hQ b1 t (hs a b1 hs1)
  · exact ht a1 b ht1

theorem ltShape_single_lt {Q : List Char → Prop} {tail : List Char}
    (hlt : '<' ∉ tail) (hq : Q tail) : LtShape Q ('<' :: tail) := by
  intro a b heq
  cases a with
  | nil =>
    rw [List.nil_append] at heq
    injection heq with _ h2
    rw [← h2]
    exact hq
  | cons x a2 =>
    rw [List.cons_append] at heq
    injection heq with _ h2
    exact absurd (by rw [h2]; simp) hlt

theorem ltShape_joinSep {Q : List Char → Prop} (hQ : ∀ b t, Q b → Q (b ++ t))
    {sep : List Char} (hsep : LtShape Q sep) :
    ∀ {l : List (List Char)}, (∀ x ∈ l, LtShape Q x) → LtShape Q (joinSep sep l)
  | [], _ => ltShape_no_lt (by simp [joinSep])
  | [x], h => by
    rw [joinSep]
    exact h x (by simp)
  | x :: y :: ys, h => by
    have hj : joinSep sep (x :: y :: ys) = (x ++ sep) ++ joinSep sep (y :: ys) := rfl
    rw [hj]
    exact ltShape_append hQ
      (ltShape_append hQ (h x (List.mem_cons_self x _)) hsep)
      (ltShape_joinSep hQ hsep (fun z hz => h z (List.mem_cons_of_mem x hz)))

theorem tagTail_extend : ∀ (b t : List Char), TagTail b → TagTail (b ++ t) := by
  rintro b t ⟨k, r, rfl, hk, hup⟩
  exact ⟨k, r ++ t, by simp, hk, hup⟩

theorem tagOrEorTail_extend : ∀ (b t : List Char), TagOrEorTail b → TagOrEorTail (b ++ t) := by
  rintro b t (htag | ⟨r, rfl⟩)
  · exact Or.inl (tagTail_extend b t htag)
  · exact Or.inr ⟨r ++ t, by simp⟩

theorem anyTail_extend : ∀ (b t : List Char), AnyTail b → AnyTail (b ++ t) := by
  rintro b t (htag | ⟨r, rfl⟩ | ⟨r, rfl⟩)
  · exact Or.inl (tagTail_extend b t htag)
  · exact Or.inr (Or.inl ⟨r ++ t, by simp⟩)
  · exact Or.inr (Or.inr ⟨r ++ t, by simp⟩)

theorem ltShape_mono {Q Q' : List Char → Prop} (h : ∀ b, Q b → Q' b) {s : List Char}
    (hs : LtShape Q s) : LtShape Q' s :=
  fun a b heq => h b (hs a b heq)

/-! ### Digit strings -/

theorem natDigitsFuel_digits :
    ∀ (f n : Nat), ∀ c ∈ natDigitsFuel f n, isDigitChar c = true
  | 0, _, c, hc => absurd hc (by simp [natDigitsFuel])
  | f + 1, n, c, hc => by
    rw [natDigitsFuel] at hc
    have hdig : ∀ m : Nat, m < 10 → isDigitChar (Char.ofNat (48 + m)) = true := by
      intro m hm
      have ht : (Char.ofNat (48 + m)).toNat = 48 + m := char_toNat_ofNat (by omega)
      simp only [isDigitChar, decide_eq_true_eq]
      exact ⟨char_le_of_toNat (by rw [ht]; show 48 ≤ 48 + m; omega),
        char_le_of_toNat (by rw [ht]; show 48 + m ≤ 57; omega)⟩
    split at hc
    · next hn =>
      rw [List.mem_singleton] at hc
      rw [hc]
      exact hdig n hn
    · rcases List.mem_append.mp hc with hc2 | hc2
      · exact natDigitsFuel_digits f (n / 10) c hc2
      · rw [List.mem_singleton] at hc2
        rw [hc2]
        exact hdig (n % 10) (Nat.mod_lt _ (by omega))

theorem natDigits_digits (n : Nat) : ∀ c ∈ natDigits n, isDigitChar c = true :=
  natDigitsFuel_digits (n + 1) n

theorem natDigits_ne_nil (n : Nat) : natDigits n ≠ [] := by
  unfold natDigits natDigitsFuel
  split
  · simp
  · simp

theorem digitsVal_append_singleton (ds : List Char) (c : Char) :
    digitsVal (ds ++ [c]) = 10 * digitsVal ds + (c.toNat - 48) := by
  unfold digitsVal
  rw [List.foldl_append]
  rfl

theorem digitsVal_natDigitsFuel : ∀ (f n : Nat), n < f → digitsVal (natDigitsFuel f n) = n
  | 0, _, h => absurd h (by omega)
  | f + 1, n, h => by
    rw [natDigitsFuel]
    split
    · next hn =>
      show digitsVal [Char.ofNat (48 + n)] = n
      unfold digitsVal
      simp only [List.foldl_cons, List.foldl_nil]
      rw [char_toNat_ofNat (by omega)]
      omega
    · next hn =>
      rw [digitsVal_append_singleton]
      have hrec : n / 10 < f := by omega
      rw [digitsVal_natDigitsFuel f (n / 10) hrec]
      rw [char_toNat_ofNat (by omega)]
      omega

theorem digitsVal_natDigits (n : Nat) : digitsVal (natDigits n) = n :=
  digitsVal_natDigitsFuel (n + 1) n (by omega)

/-! ### Key and value facts -/

theorem upperName_isName {c : Char} (h : isUpperNameChar c = true) : isNameChar c = true := by
  simp only [isUpperNameChar, decide_eq_true_eq] at h
  simp only [isNameChar, decide_eq_true_eq]
  tauto

theorem upperName_ne_lt {c : Char} (h : isUpperNameChar c = true) : c ≠ '<' := by
  intro he
  subst he
  exact absurd h (by decide)

theorem asciiUpper_of_upperName {c : Char} (h : isUpperNameChar c = true) :
    asciiUpper c = c := by
  simp only [isUpperNameChar, decide_eq_true_eq] at h
  rcases h with ⟨h1, h2⟩ | h | h
  · apply asciiUpper_eq_self
    rintro ⟨ha, _⟩
    have hx := char_le_toNat ha
    have hy := char_le_toNat h2
    revert hx hy
    show 97 ≤ c.toNat → c.toNat ≤ 90 → False
    omega
  · subst h; decide
  · subst h; decide

theorem map_asciiUpper_upperName {k : List Char}
    (h : ∀ c ∈ k, isUpperNameChar c = true) : k.map asciiUpper = k :=
  (List.map_congr_left (fun c hc => asciiUpper_of_upperName (h c hc))).trans (List.map_id k)

theorem wfKey_ne_nil {k : List Char} (h : wfKey k = true) : k ≠ [] := by
  simp only [wfKey, Bool.and_eq_true] at h
  simpa using h.1

theorem wfKey_upper {k : List Char} (h : wfKey k = true) :
    ∀ c ∈ k, isUpperNameChar c = true := by
  simp only [wfKey, Bool.and_eq_true, List.all_eq_true] at h
  exact h.2

theorem normKey_id {k : List Char} (h : wfKey k = true) : normKey k = k := by
  unfold normKey
  rw [map_asciiUpper_upperName (wfKey_upper h)]
  refine (List.map_congr_left ?_).trans (List.map_id k)
  intro c hc
  have hup := wfKey_upper h c hc
  have : ¬ c = ' ' := by
    intro he
    subst he
    exact absurd hup (by decide)
  simp [this]

theorem wfVal_ne_nil {v : List Char} (h : wfVal v = true) : v ≠ [] := by
  simp only [wfVal, Bool.and_eq_true] at h
  simpa using h.1.1

theorem wfVal_valChar {v : List Char} (h : wfVal v = true) :
    ∀ c ∈ v, isValChar c = true := by
  simp only [wfVal, Bool.and_eq_true, List.all_eq_true] at h
  exact h.1.2

theorem wfVal_no_lt_nl {v : List Char} (h : wfVal v = true) :
    ∀ c ∈ v, ¬ (c = '<' ∨ c = '\n') := by
  intro c hc
  have := wfVal_valChar h c hc
  simpa [isValChar] using this

theorem wfVal_last {v : List Char} (h : wfVal v = true) :
    ∀ c, v.getLast? = some c → isRustWhitespace c = false := by
  intro c hc
  simp only [wfVal, Bool.and_eq_true] at h
  have h2 := h.2
  rw [hc] at h2
  simpa using h2

theorem trimEnd_id {v : List Char} (h : wfVal v = true) : trimEnd v = v := by
  unfold trimEnd
  cases hrev : v.reverse with
  | nil =>
    exfalso
    exact wfVal_ne_nil h (by simpa using congrArg List.reverse hrev)
  | cons c rest =>
    have hc : v.getLast? = some c := by
      rw [← List.head?_reverse, hrev]
      rfl
    have hws := wfVal_last h c hc
    rw [List.dropWhile_cons, hws]
    simp only [Bool.false_eq_true, if_false]
    rw [← hrev, List.reverse_reverse]

/-! ### Shapes of serialized pieces -/

theorem serTag_tail_no_lt {k v : List Char} (hk : wfKey k = true) (hv : wfVal v = true) :
    '<' ∉ (k ++ ':' :: (natDigits (utf8Len v) ++ '>' :: v)) := by
  intro hmem
  simp only [List.mem_append, List.mem_cons] at hmem
  rcases hmem with hc | hc | hc | hc | hc
  · exact upperName_ne_lt (wfKey_upper hk '<' hc) rfl
  · exact absurd hc (by decide)
  · exact absurd (natDigits_digits (utf8Len v) '<' hc) (by decide)
  · exact absurd hc (by decide)
  · exact (wfVal_no_lt_nl hv '<' hc) (Or.inl rfl)

theorem ltShape_serTag {k v : List Char} (hk : wfKey k = true) (hv : wfVal v = true) :
    LtShape TagTail (serTag k v) := by
  unfold serTag
  exact ltShape_single_lt (serTag_tail_no_lt hk hv)
    ⟨k, natDigits (utf8Len v) ++ '>' :: v, rfl, wfKey_ne_nil hk, wfKey_upper hk⟩

theorem ltShape_pairTag {p : List Char × ADIFType} (h : wfPair p = true) :
    LtShape TagTail (pairTag p) := by
  rcases p with ⟨k, t⟩
  cases t with
  | Str v =>
    simp only [wfPair, Bool.and_eq_true] at h
    exact ltShape_serTag h.1 h.2
  | Bool b => exact absurd h (by simp [wfPair])
  | Num x => exact absurd h (by simp [wfPair])

theorem ltShape_recChunk {r : ADIFRecord} (h : r.pairs.all wfPair = true) :
    LtShape TagTail (recChunk r) := by
  unfold recChunk
  refine ltShape_joinSep tagTail_extend (ltShape_no_lt (by simp)) ?_
  intro x hx
  rw [List.mem_map] at hx
  obtain ⟨p, hp, rfl⟩ := hx
  rw [List.all_eq_true] at h
  exact ltShape_pairTag (h p hp)

/-! ### Tokenizing a serialized tag -/

theorem matchTag_serTag {k v rest : List Char} (hk : wfKey k = true) (hv : wfVal v = true)
    (hstop : rest = [] ∨ ∃ d r2, rest = d :: r2 ∧ (d = '<' ∨ d = '\n')) :
    matchTag (serTag k v ++ rest) = some (⟨k, utf8Len v, none, v⟩, rest) := by
  have hup := wfKey_upper hk
  have e1 : serTag k v ++ rest =
      '<' :: (k ++ ':' :: (natDigits (utf8Len v) ++ '>' :: (v ++ rest))) := by
    simp [serTag]
  rw [e1]
  have hsplit1 := takeWhile_append_stop (p := isNameChar) k
    (':' :: (natDigits (utf8Len v) ++ '>' :: (v ++ rest)))
    (fun c hc => upperName_isName (hup c hc)) (by intro d hd; cases hd; decide)
  have hsplit2 := takeWhile_append_stop (p := isDigitChar) (natDigits (utf8Len v))
    ('>' :: (v ++ rest)) (natDigits_digits _) (by intro d hd; cases hd; decide)
  have hsplit3 := takeWhile_append_stop (p := isValChar)
    v rest
    (wfVal_valChar hv)
    (by
      intro d hd
      rcases hstop with rfl | ⟨d2, r2, rfl, hd2⟩
      · simp at hd
      · rw [List.head?_cons] at hd
        injection hd with hd3
        subst hd3
        rcases hd2 with rfl | rfl <;> decide)
  have hkne : k.isEmpty = false := by
    have := wfKey_ne_nil hk
    simpa using this
  have hvne : v.isEmpty = false := by
    have := wfVal_ne_nil hv
    simpa using this
  have hdne : (natDigits (utf8Len v)).isEmpty = false := by
    have := natDigits_ne_nil (utf8Len v)
    simpa using this
  simp [matchTag, matchClose, hsplit1.1, hsplit1.2, hsplit2.1, hsplit2.2,
    hsplit3.1, hsplit3.2, hkne, hvne, hdne, map_asciiUpper_upperName hup,
    digitsVal_natDigits, trimEnd_id hv]

theorem wfPair_str {p : List Char × ADIFType} (h : wfPair p = true) :
    ∃ k v, p = (k, ADIFType.Str v) ∧ wfKey k = true ∧ wfVal v = true := by
  rcases p with ⟨k, t⟩
  cases t with
  | Str v =>
    simp only [wfPair, Bool.and_eq_true] at h
    exact ⟨k, v, rfl, h.1, h.2⟩
  | Bool b => exact absurd h (by simp [wfPair])
  | Num x => exact absurd h (by simp [wfPair])

theorem all_wfPair_tail {p : List Char × ADIFType} {ps : List (List Char × ADIFType)}
    (h : (p :: ps).all wfPair = true) : ps.all wfPair = true := by
  simp only [List.all_cons, Bool.and_eq_true] at h
  exact h.2

theorem all_wfPair_head {p : List Char × ADIFType} {ps : List (List Char × ADIFType)}
    (h : (p :: ps).all wfPair = true) : wfPair p = true := by
  simp only [List.all_cons, Bool.and_eq_true] at h
  exact h.1

/-- A nonempty well-formed tag concatenation starts with `<`. -/
theorem joinTags_head :
    ∀ {l : List (List Char × ADIFType)}, l ≠ [] → l.all wfPair = true →
      ∃ r2, joinSep [] (l.map pairTag) = '<' :: r2 := by
  intro l hne h
  match l with
  | [p] =>
    obtain ⟨k, v, rfl, _, _⟩ := wfPair_str (all_wfPair_head h)
    exact ⟨k ++ ':' :: (natDigits (utf8Len v) ++ '>' :: v), rfl⟩
  | p :: q :: ps =>
    obtain ⟨k, v, rfl, _, _⟩ := wfPair_str (all_wfPair_head h)
    refine ⟨(k ++ ':' :: (natDigits (utf8Len v) ++ '>' :: v)) ++
      joinSep [] ((q :: ps).map pairTag), ?_⟩
    show (pairTag (k, ADIFType.Str v) ++ []) ++
      joinSep [] (pairTag q :: ps.map pairTag) = _
    rw [List.append_nil]
    rfl

/-- Tokenizing the concatenated tags of one record. -/
theorem parse_tokens_tags_concat :
    ∀ (pairs : List (List Char × ADIFType)), pairs.all wfPair = true →
      parse_tokens (joinSep [] (pairs.map pairTag)) = pairs.map tokenOf
  | [], _ => rfl
  | [p], h => by
    obtain ⟨k, v, rfl, hk, hv⟩ := wfPair_str (all_wfPair_head h)
    show parse_tokens (serTag k v) = _
    rw [← List.append_nil (serTag k v),
      parse_tokens_match (matchTag_serTag hk hv (Or.inl rfl))]
    rfl
  | p :: q :: ps, h => by
    obtain ⟨k, v, rfl, hk, hv⟩ := wfPair_str (all_wfPair_head h)
    have htail := all_wfPair_tail h
    have e : joinSep [] (List.map pairTag ((k, ADIFType.Str v) :: q :: ps)) =
        serTag k v ++ joinSep [] (List.map pairTag (q :: ps)) := by
      show (pairTag (k, ADIFType.Str v) ++ []) ++
        joinSep [] (pairTag q :: ps.map pairTag) = _
      rw [List.append_nil]
      rfl
    obtain ⟨r2, hr2⟩ := joinTags_head (l := q :: ps) (by simp) htail
    rw [e, parse_tokens_match (matchTag_serTag hk hv (Or.inr ⟨'<', r2, hr2, Or.inl rfl⟩)),
      parse_tokens_tags_concat (q :: ps) htail]
    rfl

/-- Tokenizing the newline-joined tags of the header (followed by the
trailing newline the serializer pushes before `<EOH>`). -/
theorem parse_tokens_tags_joinNL :
    ∀ (pairs : List (List Char × ADIFType)), pairs.all wfPair = true →
      parse_tokens (joinSep ['\n'] (pairs.map pairTag) ++ ['\n']) = pairs.map tokenOf
  | [], _ => by
    show parse_tokens ([] ++ ['\n']) = []
    rw [List.nil_append, parse_tokens_skip_not_lt (by decide)]
    rfl
  | [p], h => by
    obtain ⟨k, v, rfl, hk, hv⟩ := wfPair_str (all_wfPair_head h)
    show parse_tokens (serTag k v ++ ['\n']) = _
    rw [parse_tokens_match (matchTag_serTag hk hv (Or.inr ⟨'\n', [], rfl, Or.inr rfl⟩)),
      parse_tokens_skip_not_lt (by decide)]
    rfl
  | p :: q :: ps, h => by
    obtain ⟨k, v, rfl, hk, hv⟩ := wfPair_str (all_wfPair_head h)
    have htail := all_wfPair_tail h
    have e : joinSep ['\n'] (List.map pairTag ((k, ADIFType.Str v) :: q :: ps)) ++ ['\n'] =
        serTag k v ++ ('\n' :: (joinSep ['\n'] (List.map pairTag (q :: ps)) ++ ['\n'])) := by
      show ((pairTag (k, ADIFType.Str v) ++ ['\n']) ++
        joinSep ['\n'] (pairTag q :: ps.map pairTag)) ++ ['\n'] = _
      simp [pairTag, List.append_assoc]
    rw [e, parse_tokens_match (matchTag_serTag hk hv (Or.inr ⟨'\n', _, rfl, Or.inr rfl⟩)),
      parse_tokens_skip_not_lt (by decide),
      parse_tokens_tags_joinNL (q :: ps) htail]
    rfl

/-- `build_token_list` recovers the original pairs from the recovered
tokens. -/
theorem build_token_list_tokens {pairs : List (List Char × ADIFType)}
    (h : pairs.all wfPair = true) :
    build_token_list (pairs.map tokenOf) = pairs := by
  unfold build_token_list
  rw [List.map_map]
  refine (List.map_congr_left ?_).trans (List.map_id pairs)
  intro p hp
  obtain ⟨k, v, rfl, _, _⟩ := wfPair_str ((List.all_eq_true.mp h) p hp)
  rfl

/-! ### Prefix, replace and split -/

theorem isPfx_iff {pat s : List Char} : isPfx pat s = true ↔ ∃ rest, s = pat ++ rest := by
  induction pat generalizing s with
  | nil => simp [isPfx]
  | cons p ps ih =>
    cases s with
    | nil =>
      simp only [isPfx]
      constructor
      · intro h
        exact absurd h (by simp)
      · rintro ⟨rest, hr⟩
        exact absurd hr (by simp)
    | cons c cs =>
      simp only [isPfx, decide_eq_true_eq]
      constructor
      · rintro ⟨rfl, h2⟩
        obtain ⟨rest, rfl⟩ := ih.mp h2
        exact ⟨rest, rfl⟩
      · rintro ⟨rest, hr⟩
        rw [List.cons_append] at hr
        injection hr with h1 h2
        exact ⟨h1.symm, ih.mpr ⟨rest, h2⟩⟩

theorem replaceFuel_no_occ {pat rep : List Char} :
    ∀ (f : Nat) (s : List Char), NoOcc pat s → replaceFuel pat rep f s = s
  | 0, _, _ => rfl
  | _ + 1, [], _ => rfl
  | f + 1, c :: cs, hno => by
    have hp : isPfx pat (c :: cs) = false := by
      by_contra hx
      rw [Bool.not_eq_false] at hx
      obtain ⟨rest, hr⟩ := isPfx_iff.mp hx
      exact hno [] rest (by rw [List.nil_append]; exact hr)
    rw [replaceFuel, hp]
    simp only [Bool.false_eq_true, if_false]
    rw [replaceFuel_no_occ f cs (fun a b hab => hno (c :: a) b (by rw [hab]; rfl))]

theorem replaceSub_no_occ {pat rep s : List Char} (h : NoOcc pat s) :
    replaceSub pat rep s = s :=
  replaceFuel_no_occ s.length s h

theorem isPfx_nil_false {pat : List Char} (hpat : pat ≠ []) : isPfx pat [] = false := by
  cases pat with
  | nil => exact absurd rfl hpat
  | cons p ps => rfl

theorem splitFuel_nil (pat : List Char) : ∀ g, splitFuel pat g [] = [[]]
  | 0 => rfl
  | _ + 1 => rfl

theorem splitFuel_congr {pat : List Char} (hpat : pat ≠ []) :
    ∀ (f g : Nat) (s : List Char), s.length ≤ f → s.length ≤ g →
      splitFuel pat f s = splitFuel pat g s
  | 0, g, s, hf, _ => by
    have hs : s = [] := List.length_eq_zero.mp (Nat.le_zero.mp hf)
    subst hs
    rw [splitFuel_nil, splitFuel_nil]
  | f + 1, 0, s, _, hg => by
    have hs : s = [] := List.length_eq_zero.mp (Nat.le_zero.mp hg)
    subst hs
    rw [splitFuel_nil, splitFuel_nil]
  | f + 1, g + 1, [], _, _ => rfl
  | f + 1, g + 1, c :: cs, hf, hg => by
    rw [splitFuel, splitFuel]
    by_cases hp : isPfx pat (c :: cs) = true
    · obtain ⟨rest, hr⟩ := isPfx_iff.mp hp
      have hlen : (c :: cs).length = pat.length + rest.length := by
        rw [hr]
        simp
      have hpat1 : 1 ≤ pat.length := by
        cases pat with
        | nil => exact absurd rfl hpat
        | cons _ _ => simp
      have hdrop : (c :: cs).drop pat.length = rest := by
        rw [hr, List.drop_left]
      rw [hp]
      simp only [if_true]
      rw [hdrop]
      simp only [List.length_cons] at hf hg hlen
      rw [splitFuel_congr hpat f g rest (by omega) (by omega)]
    · rw [Bool.eq_false_iff.mpr hp]
      simp only [Bool.false_eq_true, if_false]
      simp only [List.length_cons] at hf hg
      rw [splitFuel_congr hpat f g cs (by omega) (by omega)]

theorem splitOn_step_head {pat s : List Char} (hpat : pat ≠ []) (hp : isPfx pat s = true) :
    splitOnSub pat s = [] :: splitOnSub pat (s.drop pat.length) := by
  obtain ⟨rest, hr⟩ := isPfx_iff.mp hp
  have hpat1 : 1 ≤ pat.length := by
    cases pat with
    | nil => exact absurd rfl hpat
    | cons _ _ => simp
  cases s with
  | nil =>
    rw [isPfx_nil_false hpat] at hp
    exact absurd hp (by simp)
  | cons c cs =>
    show splitFuel pat (cs.length + 1) (c :: cs) = _
    rw [splitFuel, hp]
    simp only [if_true]
    have hdrop : (c :: cs).drop pat.length = rest := by
      rw [hr, List.drop_left]
    have hlen : (c :: cs).length = pat.length + rest.length := by
      rw [hr]
      simp
    simp only [List.length_cons] at hlen
    rw [hdrop, splitFuel_congr hpat cs.length rest.length rest (by omega) (Nat.le_refl _)]
    rfl

theorem splitOn_step_cons {pat : List Char} {c : Char} {cs : List Char}
    (hp : isPfx pat (c :: cs) = false) :
    splitOnSub pat (c :: cs) = consHead c (splitOnSub pat cs) := by
  show splitFuel pat (cs.length + 1) (c :: cs) = _
  rw [splitFuel, hp]
  simp only [Bool.false_eq_true, if_false]
  rfl

theorem splitOn_no_occ {pat : List Char} (hpat : pat ≠ []) :
    ∀ s, NoOcc pat s → splitOnSub pat s = [s]
  | [], _ => rfl
  | c :: cs, hno => by
    have hp : isPfx pat (c :: cs) = false := by
      by_contra hx
      rw [Bool.not_eq_false] at hx
      obtain ⟨rest, hr⟩ := isPfx_iff.mp hx
      exact hno [] rest (by rw [List.nil_append]; exact hr)
    rw [splitOn_step_cons hp,
      splitOn_no_occ hpat cs (fun a b hab => hno (c :: a) b (by rw [hab]; rfl))]
    rfl

theorem splitOn_boundary {pat : List Char} (hpat : pat ≠ []) :
    ∀ (pre post : List Char),
      (∀ a b, pre ++ pat ++ post = a ++ pat ++ b → pre.length ≤ a.length) →
      splitOnSub pat (pre ++ pat ++ post) = pre :: splitOnSub pat post
  | [], post, _ => by
    have hp : isPfx pat (pat ++ post) = true := isPfx_iff.mpr ⟨post, rfl⟩
    rw [List.nil_append, splitOn_step_head hpat hp, List.drop_left]
  | c :: pre, post, hno => by
    have hp : isPfx pat ((c :: pre) ++ pat ++ post) = false := by
      by_contra hx
      rw [Bool.not_eq_false] at hx
      obtain ⟨rest, hr⟩ := isPfx_iff.mp hx
      have := hno [] rest (by rw [List.nil_append]; exact hr)
      simp at this
    have e : (c :: pre) ++ pat ++ post = c :: (pre ++ pat ++ post) := by simp
    rw [e] at hp
    rw [e, splitOn_step_cons hp,
      splitOn_boundary hpat pre post (fun a b hab => by
        have := hno (c :: a) b (by rw [e, hab]; rfl)
        simpa using this)]
    rfl

/-! ### No spurious sentinels in serialized text -/

theorem pat4_neq_tag {t1 t2 t3 : Char} (h2 : t2 ≠ ':') (h3 : t3 ≠ ':')
    {k r' b : List Char} (hk : k ≠ []) (hup : ∀ c ∈ k, isUpperNameChar c = true) :
    t1 :: t2 :: t3 :: '>' :: b ≠ k ++ ':' :: r' := by
  intro heq
  match k, hk with
  | c1 :: k1, _ =>
    rw [List.cons_append] at heq
    injection heq with h1 hrest1
    match k1 with
    | [] =>
      rw [List.nil_append] at hrest1
      injection hrest1 with h5 _
      exact h2 h5
    | c2 :: k2 =>
      rw [List.cons_append] at hrest1
      injection hrest1 with h5 hrest2
      match k2 with
      | [] =>
        rw [List.nil_append] at hrest2
        injection hrest2 with h6 _
        exact h3 h6
      | c3 :: k3 =>
        rw [List.cons_append] at hrest2
        injection hrest2 with h6 hrest3
        match k3 with
        | [] =>
          rw [List.nil_append] at hrest3
          injection hrest3 with h7 _
          exact absurd h7 (by decide)
        | c4 :: k4 =>
          rw [List.cons_append] at hrest3
          injection hrest3 with h7 _
          have hin := hup c4 (by simp)
          rw [← h7] at hin
          exact absurd hin (by decide)

theorem noOccBefore_tag {pre : List Char} (h : LtShape TagTail pre) (post : List Char)
    {t1 t2 t3 : Char} (h2 : t2 ≠ ':') (h3 : t3 ≠ ':') :
    ∀ a b, pre ++ ('<' :: t1 :: t2 :: t3 :: '>' :: []) ++ post =
        a ++ ('<' :: t1 :: t2 :: t3 :: '>' :: []) ++ b → pre.length ≤ a.length := by
  intro a b heq
  by_contra hlt
  push_neg at hlt
  have heq' : pre ++ ('<' :: (t1 :: t2 :: t3 :: '>' :: post)) =
      a ++ '<' :: (t1 :: t2 :: t3 :: '>' :: b) := by
    have l1 : pre ++ ('<' :: t1 :: t2 :: t3 :: '>' :: []) ++ post =
        pre ++ ('<' :: (t1 :: t2 :: t3 :: '>' :: post)) := by simp
    have l2 : a ++ ('<' :: t1 :: t2 :: t3 :: '>' :: []) ++ b =
        a ++ '<' :: (t1 :: t2 :: t3 :: '>' :: b) := by simp
    rw [← l1, ← l2]
    exact heq
  obtain ⟨b1, hpre, hb⟩ := append_cons_split_left heq' hlt
  obtain ⟨k, r, hb1, hk, hup⟩ := h a b1 hpre
  rw [hb1] at hb
  have : t1 :: t2 :: t3 :: '>' :: b = k ++ ':' :: (r ++ '<' :: (t1 :: t2 :: t3 :: '>' :: post)) := by
    rw [hb]
    simp
  exact pat4_neq_tag h2 h3 hk hup this

theorem anyTail_head {b : List Char} (h : AnyTail b) :
    ∀ d b2, b = d :: b2 → isUpperNameChar d = true ∨ d = 'E' := by
  intro d b2 hb
  rcases h with ⟨k, r, hb1, hk, hup⟩ | ⟨r, hr⟩ | ⟨r, hr⟩
  · match k, hk with
    | c1 :: k1, _ =>
      rw [hb1, List.cons_append] at hb
      injection hb with h1 _
      exact Or.inl (h1 ▸ hup c1 (by simp))
  · rw [hr] at hb
    injection hb with h1 _
    exact Or.inr h1.symm
  · rw [hr] at hb
    injection hb with h1 _
    exact Or.inr h1.symm

theorem noOcc_lower_pat {s : List Char} (h : LtShape AnyTail s) {c2 : Char}
    (hc2a : isUpperNameChar c2 = false) (hc2b : c2 ≠ 'E') (tail : List Char) :
    NoOcc ('<' :: c2 :: tail) s := by
  intro a b heq
  have heq' : s = a ++ '<' :: (c2 :: (tail ++ b)) := by
    rw [heq]
    simp
  have hany := h a (c2 :: (tail ++ b)) heq'
  rcases anyTail_head hany c2 (tail ++ b) rfl with hx | hx
  · rw [hx] at hc2a
    exact absurd hc2a (by simp)
  · exact hc2b hx

theorem noOcc_eoh_of_tagOrEor {s : List Char} (h : LtShape TagOrEorTail s) :
    NoOcc (strChars "<EOH>") s := by
  intro a b heq
  have epat : strChars "<EOH>" = '<' :: 'E' :: 'O' :: 'H' :: '>' :: [] := rfl
  have heq' : s = a ++ '<' :: ('E' :: 'O' :: 'H' :: '>' :: b) := by
    rw [heq, epat]
    simp
  rcases h a _ heq' with ⟨k, r, hb1, hk, hup⟩ | ⟨r, hr⟩
  · exact pat4_neq_tag (by decide) (by decide) hk hup hb1
  · simp [List.cons.injEq] at hr

/-! ### Serialization in the well-formed regime -/

theorem adifType_serialize_str {k v : List Char} (hk : wfKey k = true) :
    ADIFType.serialize k (ADIFType.Str v) = some (serTag k v) := by
  simp [ADIFType.serialize, serTag, normKey_id hk, List.append_assoc]

theorem serPairs_eq : ∀ {l : List (List Char × ADIFType)}, l.all wfPair = true →
    serPairs l = some (l.map pairTag)
  | [], _ => rfl
  | p :: ps, h => by
    obtain ⟨k, v, rfl, hk, _⟩ := wfPair_str (all_wfPair_head h)
    show (match (ADIFType.Str v).serialize k, serPairs ps with
      | some s, some rest => some (s :: rest)
      | _, _ => none) = _
    rw [adifType_serialize_str hk, serPairs_eq (all_wfPair_tail h)]
    rfl

theorem header_serialize_eq {now : List Char} {hdr : ADIFHeader}
    (h : hdr.pairs.all wfPair = true) :
    ADIFHeader.serialize now hdr = some (bannerPrefix ++ now ++
      '\n' :: (joinSep ['\n'] (hdr.pairs.map pairTag) ++ '\n' :: strChars "<EOH>")) := by
  unfold ADIFHeader.serialize
  rw [serPairs_eq h]

theorem record_serialize_eq {r : ADIFRecord} (h : r.pairs.all wfPair = true) :
    r.serialize = some (recChunk r ++ strChars "<EOR>") := by
  unfold ADIFRecord.serialize
  rw [serPairs_eq h]
  rfl

theorem serRecords_eq : ∀ {l : List ADIFRecord},
    (∀ r ∈ l, r.pairs.all wfPair = true) →
    serRecords l = some (l.map (fun r => recChunk r ++ strChars "<EOR>"))
  | [], _ => rfl
  | r :: rs, h => by
    show (match r.serialize, serRecords rs with
      | some s, some rest => some (s :: rest)
      | _, _ => none) = _
    rw [record_serialize_eq (h r (by simp)),
      serRecords_eq (fun r2 hr2 => h r2 (List.mem_cons_of_mem r hr2))]
    rfl

theorem wfFile_parts {f : ADIFFile} (h : wfFile f = true) :
    f.header.pairs.all wfPair = true ∧ f.body ≠ [] ∧
      ∀ r ∈ f.body, r.pairs.all wfPair = true := by
  simp only [wfFile, Bool.and_eq_true, List.all_eq_true] at h
  refine ⟨?_, by simpa using h.1.2, ?_⟩
  · rw [List.all_eq_true]
    exact h.1.1
  · intro r hr
    rw [List.all_eq_true]
    exact h.2 r hr

theorem file_serialize_eq {now : List Char} {f : ADIFFile} (hf : wfFile f = true) :
    ADIFFile.serialize now f = some
      ((bannerPrefix ++ now ++
        '\n' :: (joinSep ['\n'] (f.header.pairs.map pairTag) ++ '\n' :: strChars "<EOH>")) ++
       '\n' :: joinSep ['\n'] (f.body.map (fun r => recChunk r ++ strChars "<EOR>"))) := by
  obtain ⟨h1, _, h3⟩ := wfFile_parts hf
  unfold ADIFFile.serialize
  rw [header_serialize_eq h1, serRecords_eq h3]

/-! ### Shapes of the assembled serialized file -/

theorem ltShape_cons {Q : List Char → Prop} {c : Char} (hc : c ≠ '<') {s : List Char}
    (h : LtShape Q s) : LtShape Q (c :: s) := by
  intro a b heq
  cases a with
  | nil =>
    rw [List.nil_append] at heq
    injection heq with h1 _
    exact absurd h1 hc
  | cons x a2 =>
    rw [List.cons_append] at heq
    injection heq with _ h2
    exact h a2 b h2

theorem ltShape_banner_now {Q : List Char → Prop} {now : List Char} (hnow : '<' ∉ now) :
    LtShape Q (bannerPrefix ++ now) :=
  ltShape_no_lt (fun hmem => by
    rcases List.mem_append.mp hmem with h | h
    · exact absurd h (by decide)
    · exact hnow h)

theorem ltShape_tags_joinNL {pairs : List (List Char × ADIFType)}
    (h : pairs.all wfPair = true) :
    LtShape TagTail (joinSep ['\n'] (pairs.map pairTag)) :=
  ltShape_joinSep tagTail_extend (ltShape_no_lt (by decide)) (fun x hx => by
    obtain ⟨p, hp, rfl⟩ := List.mem_map.mp hx
    exact ltShape_pairTag ((List.all_eq_true.mp h) p hp))

theorem ltShape_preH {now : List Char} {pairs : List (List Char × ADIFType)}
    (hnow : '<' ∉ now) (h : pairs.all wfPair = true) :
    LtShape TagTail ((bannerPrefix ++ now) ++
      ('\n' :: (joinSep ['\n'] (pairs.map pairTag) ++ ['\n']))) :=
  ltShape_append tagTail_extend (ltShape_banner_now hnow)
    (ltShape_cons (by decide)
      (ltShape_append tagTail_extend (ltShape_tags_joinNL h) (ltShape_no_lt (by decide))))

theorem ltShape_eor_lit {Q : List Char → Prop} (hq : Q ('E' :: 'O' :: 'R' :: '>' :: [])) :
    LtShape Q (strChars "<EOR>") := by
  have e : strChars "<EOR>" = '<' :: ('E' :: 'O' :: 'R' :: '>' :: []) := rfl
  rw [e]
  exact ltShape_single_lt (by decide) hq

theorem ltShape_eoh_lit {Q : List Char → Prop} (hq : Q ('E' :: 'O' :: 'H' :: '>' :: [])) :
    LtShape Q (strChars "<EOH>") := by
  have e : strChars "<EOH>" = '<' :: ('E' :: 'O' :: 'H' :: '>' :: []) := rfl
  rw [e]
  exact ltShape_single_lt (by decide) hq

theorem ltShape_postB {body : List ADIFRecord}
    (hb : ∀ r ∈ body, r.pairs.all wfPair = true) :
    LtShape TagOrEorTail
      ('\n' :: joinSep ['\n'] (body.map (fun r => recChunk r ++ strChars "<EOR>"))) :=
  ltShape_cons (by decide)
    (ltShape_joinSep tagOrEorTail_extend (ltShape_no_lt (by decide)) (fun x hx => by
      obtain ⟨r, hr, rfl⟩ := List.mem_map.mp hx
      exact ltShape_append tagOrEorTail_extend
        (ltShape_mono (fun b hb2 => Or.inl hb2) (ltShape_recChunk (hb r hr)))
        (ltShape_eor_lit (Or.inr ⟨[], rfl⟩))))

theorem ltShape_S_any {now : List Char} {f : ADIFFile} (hnow : '<' ∉ now)
    (hf : wfFile f = true) :
    LtShape AnyTail
      ((bannerPrefix ++ now ++
        '\n' :: (joinSep ['\n'] (f.header.pairs.map pairTag) ++ '\n' :: strChars "<EOH>")) ++
       '\n' :: joinSep ['\n'] (f.body.map (fun r => recChunk r ++ strChars "<EOR>"))) := by
  obtain ⟨h1, _, h3⟩ := wfFile_parts hf
  have hTagAny : ∀ b : List Char, TagTail b → AnyTail b := fun b hb => Or.inl hb
  refine ltShape_append anyTail_extend ?_ ?_
  · refine ltShape_append anyTail_extend (ltShape_banner_now hnow) ?_
    refine ltShape_cons (by decide) ?_
    refine ltShape_append anyTail_extend
      (ltShape_mono hTagAny (ltShape_tags_joinNL h1)) ?_
    exact ltShape_cons (by decide) (ltShape_eoh_lit (Or.inr (Or.inl ⟨[], rfl⟩)))
  · refine ltShape_cons (by decide) ?_
    refine ltShape_joinSep anyTail_extend (ltShape_no_lt (by decide)) ?_
    intro x hx
    obtain ⟨r, hr, rfl⟩ := List.mem_map.mp hx
    exact ltShape_append anyTail_extend
      (ltShape_mono hTagAny (ltShape_recChunk (h3 r hr)))
      (ltShape_eor_lit (Or.inr (Or.inr ⟨[], rfl⟩)))

/-! ### Splitting the serialized text back apart -/

theorem replaces_id {S : List Char} (h : LtShape AnyTail S) :
    replaceSub (strChars "<eor>") (strChars "<EOR>")
      (replaceSub (strChars "<eoh>") (strChars "<EOH>") S) = S := by
  have e1 : strChars "<eoh>" = '<' :: 'e' :: ('o' :: 'h' :: '>' :: []) := rfl
  have h1 : NoOcc (strChars "<eoh>") S := by
    rw [e1]
    exact noOcc_lower_pat h (by decide) (by decide) _
  have e2 : strChars "<eor>" = '<' :: 'e' :: ('o' :: 'r' :: '>' :: []) := rfl
  have h2 : NoOcc (strChars "<eor>") S := by
    rw [e2]
    exact noOcc_lower_pat h (by decide) (by decide) _
  rw [replaceSub_no_occ h1, replaceSub_no_occ h2]

theorem body_chunks :
    ∀ (l : List ADIFRecord), (∀ r ∈ l, r.pairs.all wfPair = true) → l ≠ [] →
      splitOnSub (strChars "<EOR>")
        ('\n' :: joinSep ['\n'] (l.map (fun r => recChunk r ++ strChars "<EOR>"))) =
      l.map (fun r => '\n' :: recChunk r) ++ [[]] := by
  intro l h hne
  have epat : strChars "<EOR>" = '<' :: 'E' :: 'O' :: 'R' :: '>' :: [] := rfl
  match l with
  | [r] =>
    have e : '\n' :: joinSep ['\n'] (List.map (fun r => recChunk r ++ strChars "<EOR>") [r]) =
        (('\n' :: recChunk r) ++ strChars "<EOR>") ++ [] := by
      show '\n' :: (recChunk r ++ strChars "<EOR>") = _
      simp
    rw [e]
    have hno : ∀ a b, ('\n' :: recChunk r) ++ strChars "<EOR>" ++ [] =
        a ++ strChars "<EOR>" ++ b → ('\n' :: recChunk r).length ≤ a.length := by
      simp only [epat]
      exact noOccBefore_tag (ltShape_cons (by decide) (ltShape_recChunk (h r (by simp)))) []
        (by decide) (by decide)
    rw [splitOn_boundary (by decide) ('\n' :: recChunk r) [] hno]
    rfl
  | r :: r2 :: rs =>
    have e : '\n' :: joinSep ['\n']
          (((r :: r2 :: rs).map (fun r => recChunk r ++ strChars "<EOR>"))) =
        (('\n' :: recChunk r) ++ strChars "<EOR>") ++
          ('\n' :: joinSep ['\n'] ((r2 :: rs).map (fun r => recChunk r ++ strChars "<EOR>"))) := by
      show '\n' :: (((recChunk r ++ strChars "<EOR>") ++ ['\n']) ++
        joinSep ['\n'] ((r2 :: rs).map (fun r => recChunk r ++ strChars "<EOR>"))) = _
      simp
    rw [e]
    have hno : ∀ a b, ('\n' :: recChunk r) ++ strChars "<EOR>" ++
          ('\n' :: joinSep ['\n'] ((r2 :: rs).map (fun r => recChunk r ++ strChars "<EOR>"))) =
        a ++ strChars "<EOR>" ++ b → ('\n' :: recChunk r).length ≤ a.length := by
      simp only [epat]
      exact noOccBefore_tag (ltShape_cons (by decide) (ltShape_recChunk (h r (by simp)))) _
        (by decide) (by decide)
    rw [splitOn_boundary (by decide) ('\n' :: recChunk r) _ hno]
    rw [body_chunks (r2 :: rs) (fun x hx => h x (List.mem_cons_of_mem r hx)) (by simp)]
    rfl

theorem splitTerm_body {l : List ADIFRecord}
    (h : ∀ r ∈ l, r.pairs.all wfPair = true) (hne : l ≠ []) :
    splitTerminator (strChars "<EOR>")
      ('\n' :: joinSep ['\n'] (l.map (fun r => recChunk r ++ strChars "<EOR>"))) =
    l.map (fun r => '\n' :: recChunk r) := by
  simp only [splitTerminator]
  rw [body_chunks l h hne, List.getLast?_concat]
  simp only [if_pos]
  exact List.dropLast_concat

/-! ### Re-tokenizing the chunks -/

theorem parse_header_chunk {now : List Char} {pairs : List (List Char × ADIFType)}
    (hnow : '<' ∉ now) (h : pairs.all wfPair = true) :
    build_token_list (parse_tokens ((bannerPrefix ++ now) ++
      ('\n' :: (joinSep ['\n'] (pairs.map pairTag) ++ ['\n'])))) = pairs := by
  have hpre : ∀ c ∈ bannerPrefix ++ now, ¬ c = '<' := by
    intro c hc heq
    subst heq
    rcases List.mem_append.mp hc with h2 | h2
    · exact absurd h2 (by decide)
    · exact hnow h2
  rw [parse_tokens_skip_run hpre, parse_tokens_skip_not_lt (by decide),
    parse_tokens_tags_joinNL pairs h]
  exact build_token_list_tokens h

theorem parse_record_chunk {r : ADIFRecord} (h : r.pairs.all wfPair = true) :
    build_token_list (parse_tokens ('\n' :: recChunk r)) = r.pairs := by
  rw [parse_tokens_skip_not_lt (by decide)]
  unfold recChunk
  rw [parse_tokens_tags_concat r.pairs h]
  exact build_token_list_tokens h

/-! ### The round trip -/

/-- C8 (corrected): on any file whose pairs live in the representable
regime — keys nonempty over `[A-Z|_]`, values nonempty without `<` or
newline and without trailing whitespace, body nonempty — and any clock
string without `<`, serialization succeeds and parsing it reproduces the
file exactly (same ordered pairs in the header and every record). -/
theorem serialize_parse_roundtrip_wf (now : List Char) (f : ADIFFile)
    (hf : wfFile f = true) (hnow : '<' ∉ now) :
    (ADIFFile.serialize now f).isSome = true ∧
    parse_adif ((ADIFFile.serialize now f).getD []) = some f := by
  obtain ⟨h1, h2ne, h3⟩ := wfFile_parts hf
  rw [file_serialize_eq hf]
  refine ⟨rfl, ?_⟩
  rw [Option.getD_some]
  simp only [parse_adif]
  rw [replaces_id (ltShape_S_any hnow hf)]
  have eS : (bannerPrefix ++ now ++
        '\n' :: (joinSep ['\n'] (f.header.pairs.map pairTag) ++ '\n' :: strChars "<EOH>")) ++
      '\n' :: joinSep ['\n'] (f.body.map (fun r => recChunk r ++ strChars "<EOR>")) =
      (((bannerPrefix ++ now) ++
        ('\n' :: (joinSep ['\n'] (f.header.pairs.map pairTag) ++ ['\n']))) ++
       strChars "<EOH>") ++
      ('\n' :: joinSep ['\n'] (f.body.map (fun r => recChunk r ++ strChars "<EOR>"))) := by
    simp
  rw [eS]
  have epatH : strChars "<EOH>" = '<' :: 'E' :: 'O' :: 'H' :: '>' :: [] := rfl
  have hno : ∀ a b, ((bannerPrefix ++ now) ++
        ('\n' :: (joinSep ['\n'] (f.header.pairs.map pairTag) ++ ['\n']))) ++
        strChars "<EOH>" ++
        ('\n' :: joinSep ['\n'] (f.body.map (fun r => recChunk r ++ strChars "<EOR>"))) =
      a ++ strChars "<EOH>" ++ b →
      ((bannerPrefix ++ now) ++
        ('\n' :: (joinSep ['\n'] (f.header.pairs.map pairTag) ++ ['\n']))).length ≤
        a.length := by
    simp only [epatH]
    exact noOccBefore_tag (ltShape_preH hnow h1) _ (by decide) (by decide)
  rw [splitOn_boundary (by decide) _ _ hno]
  rw [splitOn_no_occ (by decide) _ (noOcc_eoh_of_tagOrEor (ltShape_postB h3))]
  show some ⟨⟨build_token_list (parse_tokens _)⟩, _⟩ = some f
  rw [splitTerm_body h3 h2ne]
  rw [parse_header_chunk hnow h1]
  rw [List.map_map]
  have hb : f.body.map ((fun l => (⟨build_token_list (parse_tokens l)⟩ : ADIFRecord)) ∘
      (fun r => '\n' :: recChunk r)) = f.body := by
    refine (List.map_congr_left ?_).trans (List.map_id f.body)
    intro r hr
    show (⟨build_token_list (parse_tokens ('\n' :: recChunk r))⟩ : ADIFRecord) = r
    rw [parse_record_chunk (h3 r hr)]
  rw [hb]

/-- C8 counterexample: the serialize/parse round trip fails on a file with
an empty body — `split_terminator` manufactures one spurious empty record
out of the text after `<EOH>`, so the parsed file has one record where the
original had none. -/
theorem serialize_parse_roundtrip_cex :
    (parse_adif ((ADIFFile.serialize (strChars "2025-10-12 00:00:00")
        ⟨⟨[]⟩, []⟩).getD [])).map (fun g => g.body.length) = some 1 ∧
    (⟨⟨[]⟩, []⟩ : ADIFFile).body.length = 0 := by
  constructor
  · decide
  · rfl

/-- Witness for the corrected C8 at a concrete well-formed file. -/
theorem serialize_parse_roundtrip_wf_witness :
    (ADIFFile.serialize (strChars "2025-10-12 00:00:00")
      ⟨⟨[(strChars "ADIF_VER", ADIFType.Str (strChars "3.1.1"))]⟩,
       [⟨[(strChars "CALL", ADIFType.Str (strChars "N0CALL")),
          (strChars "GRIDSQUARE", ADIFType.Str (strChars "AA00"))]⟩]⟩).isSome = true ∧
    parse_adif ((ADIFFile.serialize (strChars "2025-10-12 00:00:00")
      ⟨⟨[(strChars "ADIF_VER", ADIFType.Str (strChars "3.1.1"))]⟩,
       [⟨[(strChars "CALL", ADIFType.Str (strChars "N0CALL")),
          (strChars "GRIDSQUARE", ADIFType.Str (strChars "AA00"))]⟩]⟩).getD []) =
      some ⟨⟨[(strChars "ADIF_VER", ADIFType.Str (strChars "3.1.1"))]⟩,
       [⟨[(strChars "CALL", ADIFType.Str (strChars "N0CALL")),
          (strChars "GRIDSQUARE", ADIFType.Str (strChars "AA00"))]⟩]⟩ :=
  serialize_parse_roundtrip_wf (strChars "2025-10-12 00:00:00")
    ⟨⟨[(strChars "ADIF_VER", ADIFType.Str (strChars "3.1.1"))]⟩,
     [⟨[(strChars "CALL", ADIFType.Str (strChars "N0CALL")),
        (strChars "GRIDSQUARE", ADIFType.Str (strChars "AA00"))]⟩]⟩
    (by decide) (by decide)

end Veelog
